import Mathlib

/-!
# Matrix Market reader with a bit-packed, inverted adjacency matrix

Shallow embedding of `read_mtx_file` and of the cells and accesses of
`print_adjacency_matrix` (src/file_management.cpp) together with the declarations of
src/global_definition.h.

* A file is the list of its bytes (`List Char`); `none` stands for a file that
  `fopen` cannot open.
* `uint64_t` values are natural numbers, reduced modulo `2 ^ 64` wherever the
  source performs arithmetic that can wrap: the decrement of a coordinate, the sum
  `num_vertices + 63`, and the counters `num_edges` and `edges_read`.
* `std::bitset<64>` is a natural number below `2 ^ 64`, bit `k` of the bitset being
  binary digit `k` of the number.
* `std::vector` is `List`; `resize` beyond the vector's `max_size` throws, which is
  modelled as the error `AllocFailed`.
* `fgets` and `sscanf` are modelled after the C library (glibc) behaviour for the
  two format strings the source uses.
-/

namespace Clique

/-! ## Constants -/

/-- Size of the line buffer: `#define MAX_LINE_LENGTH 64` in global_definition.h. -/
def MAX_LINE_LENGTH : Nat := 64

/-- Number of values of `uint64_t`. -/
def UINT64_RANGE : Nat := 2 ^ 64

/-- Largest element count that `std::vector<std::vector<std::bitset<64>>>::resize`
accepts before throwing `std::length_error`: `PTRDIFF_MAX / sizeof(value_type)` with a
24-byte `std::vector` object (libstdc++, LP64). -/
def vector_max_size : Nat := (2 ^ 63 - 1) / 24

/-! ## The C library calls used by the reader -/

/-- The bytes one `fgets` call copies and the bytes it leaves unread, for a buffer with
room for `room` bytes before the terminating NUL: copying stops after a newline, at
end of stream, or when the room is used up. -/
def fgets_take : Nat → List Char → List Char × List Char
  | 0, s => ([], s)
  | _ + 1, [] => ([], [])
  | room + 1, c :: s =>
    if c = '\n' then ([c], s)
    else (c :: (fgets_take room s).1, (fgets_take room s).2)

/-- The call `fgets(line, size, file)`: `none` is the NULL returned at end of stream,
otherwise the buffer contents and the unread rest of the stream. -/
def fgets (size : Nat) (s : List Char) : Option (List Char × List Char) :=
  if s = [] then none else some (fgets_take (size - 1) s)

/-- The successive buffers returned by repeated `fgets` calls until NULL, with a bound
on the number of calls. -/
def read_lines_fuel (size : Nat) : Nat → List Char → List (List Char)
  | 0, _ => []
  | fuel + 1, s =>
    match fgets size s with
    | none => []
    | some (line, rest) => line :: read_lines_fuel size fuel rest

/-- All buffers that repeated `fgets(line, size, file)` calls return on the stream `s`.
Every successful call consumes at least one byte when `size ≥ 2`, so `s.length` calls
reach the end of the stream. -/
def read_lines (size : Nat) (s : List Char) : List (List Char) :=
  read_lines_fuel size s.length s

/-- The C string held in a buffer: the bytes before the first NUL. -/
def cstr (buf : List Char) : List Char :=
  buf.takeWhile (fun c => c ≠ '\x00')

/-- The byte `line[0]` of a buffer (NUL when nothing precedes the terminator). -/
def first_char (buf : List Char) : Char :=
  buf.headD '\x00'

/-- The C `isspace` test in the "C" locale. -/
def isspace (c : Char) : Bool :=
  c = ' ' || c = '\t' || c = '\n' || c = '\x0b' || c = '\x0c' || c = '\r'

/-- The C `isdigit` test. -/
def isdigit (c : Char) : Bool :=
  decide ('0' ≤ c) && decide (c ≤ '9')

/-- Outcome of one `%lu` conversion. -/
inductive ScanStep where
  | inputFailure : ScanStep
  | matchFailure : ScanStep
  | converted : Nat → List Char → ScanStep
deriving DecidableEq

/-- Decimal value of a digit string. -/
def digits_value (ds : List Char) : Nat :=
  ds.foldl (fun a d => 10 * a + (d.toNat - 48)) 0

/-- One `%lu` conversion of `sscanf`: skip white space, accept an optional sign and a
non-empty run of decimal digits. The value is the one `strtoul` yields: `ULONG_MAX`
when the digits exceed 64 bits, the two's complement when a minus sign was read. -/
def conv_lu (s : List Char) : ScanStep :=
  match s.dropWhile isspace with
  | [] => ScanStep.inputFailure
  | c :: t =>
    let body := if c = '-' ∨ c = '+' then t else c :: t
    let ds := body.takeWhile isdigit
    if ds = [] then ScanStep.matchFailure
    else
      let v := digits_value ds
      ScanStep.converted
        (if UINT64_RANGE ≤ v then UINT64_RANGE - 1
         else if c = '-' then (UINT64_RANGE - v) % UINT64_RANGE else v)
        (body.dropWhile isdigit)

/-- The values assigned by `n` successive `%lu` directives (white space between the
directives is absorbed by the white-space skipping of `%lu` itself). -/
def sscanf_vals : Nat → List Char → List Nat
  | 0, _ => []
  | n + 1, s =>
    match conv_lu s with
    | ScanStep.converted v rest => v :: sscanf_vals n rest
    | _ => []

/-- The call `sscanf(line, "%lu %lu ... %lu", ...)` with `n` directives: the return
value (number of assignments, or EOF = -1 when the string ends before the first
conversion) and the assigned values in order. -/
def sscanf_lu (n : Nat) (line : List Char) : Int × List Nat :=
  let vals := sscanf_vals n (cstr line)
  (if n ≠ 0 ∧ conv_lu (cstr line) = ScanStep.inputFailure then -1 else (vals.length : Int), vals)

/-! ## Data model (global_definition.h) -/

/-- The struct `Graph`. -/
structure Graph where
  num_vertices : Nat
  num_edges : Nat
  adjacency_matrix : List (List Nat)
deriving DecidableEq

/-- `std::bitset<64>::set()`: all 64 bits become 1. -/
def bitset_set (_w : Nat) : Nat := 2 ^ 64 - 1

/-- `std::bitset<64>::reset(pos)`: bit `pos` becomes 0. -/
def bitset_reset (w pos : Nat) : Nat := w ^^^ (w &&& 2 ^ pos)

/-- `std::bitset<64>::test(pos)`. -/
def bitset_test (w pos : Nat) : Bool := w.testBit pos

/-- The element `adjacency_matrix[i][chunk]`. -/
def word_at (m : List (List Nat)) (i chunk : Nat) : Nat :=
  (m.getD i []).getD chunk 0

/-- The assignment `adjacency_matrix[i][chunk] = w`. -/
def word_put (m : List (List Nat)) (i chunk w : Nat) : List (List Nat) :=
  m.set i ((m.getD i []).set chunk w)

/-- The expression `adjacency_matrix[i][j >> 6].test(j & 0b111111)`. -/
def test_bit (m : List (List Nat)) (i j : Nat) : Bool :=
  bitset_test (word_at m i (j >>> 6)) (j &&& 0b111111)

/-- The statement `adjacency_matrix[i][j >> 6].reset(j & 0b111111)`. -/
def reset_bit (m : List (List Nat)) (i j : Nat) : List (List Nat) :=
  word_put m i (j >>> 6) (bitset_reset (word_at m i (j >>> 6)) (j &&& 0b111111))

/-! ## read_mtx_file -/

/-- Step 1, the header loop over the buffers read by `fgets`: comment buffers are
skipped, the first other buffer on which `sscanf(line, "%lu %lu %lu", ...)` returns 3
gives `(rows, cols, num_entries)`; the buffers after it are left for the edge loop. -/
def scan_header : List (List Char) → Option ((Nat × Nat × Nat) × List (List Char))
  | [] => none
  | line :: rest =>
    if first_char line = '%' then scan_header rest
    else if (sscanf_lu 3 line).1 = 3 then
      some (((sscanf_lu 3 line).2.getD 0 0, (sscanf_lu 3 line).2.getD 1 0,
        (sscanf_lu 3 line).2.getD 2 0), rest)
    else scan_header rest

/-- The vertex count of Step 2: `rows > cols ? rows : cols`. -/
def vertex_count (rows cols : Nat) : Nat :=
  if rows > cols then rows else cols

/-- Step 4: `(num_vertices + 63) >> 6` in `uint64_t` arithmetic. -/
def chunks_per_row (num_vertices : Nat) : Nat :=
  ((num_vertices + 63) % UINT64_RANGE) >>> 6

/-- Step 5, one chunk of a row: all bits set, and in the chunk with index
`chunks_per_row - 1` the bits whose vertex index `(chunk << 6) + bit` is not below
`num_vertices` are reset, for `bit` from 0 to 63. -/
def init_chunk (num_vertices cpr chunk : Nat) : Nat :=
  if chunk = (cpr + (UINT64_RANGE - 1)) % UINT64_RANGE then
    (List.range 64).foldl
      (fun w bit =>
        if num_vertices ≤ ((chunk <<< 6) % UINT64_RANGE + bit) % UINT64_RANGE
        then bitset_reset w bit else w)
      (bitset_set 0)
  else bitset_set 0

/-- Step 5, one row: `chunks_per_row` chunks. -/
def init_row (num_vertices cpr : Nat) : List Nat :=
  (List.range cpr).map (init_chunk num_vertices cpr)

/-- Step 5, the matrix after the allocation loop: `num_vertices` rows. -/
def init_matrix (num_vertices cpr : Nat) : List (List Nat) :=
  (List.range num_vertices).map (fun _ => init_row num_vertices cpr)

/-- The diagonal loop: `adjacency_matrix[i][i >> 6].reset(i & 0b111111)` for every
`i < num_vertices`. -/
def reset_diagonal (num_vertices : Nat) (m : List (List Nat)) : List (List Nat) :=
  (List.range num_vertices).foldl (fun acc i => reset_bit acc i i) m

/-- The graph as it stands when the edge loop starts. -/
def initial_graph (num_vertices : Nat) : Graph :=
  { num_vertices := num_vertices
    num_edges := 0
    adjacency_matrix :=
      reset_diagonal num_vertices (init_matrix num_vertices (chunks_per_row num_vertices)) }

/-- The graph as the allocation loop of Step 5 leaves it, before the diagonal loop. -/
def allocated_graph (num_vertices : Nat) : Graph :=
  { num_vertices := num_vertices
    num_edges := 0
    adjacency_matrix := init_matrix num_vertices (chunks_per_row num_vertices) }

/-- What the edge loop carries from one line to the next: the graph, the counter
`edges_read`, and the out-of-bounds warnings written to stderr so far (the pair of
numbers each warning prints). -/
structure IngestState where
  graph : Graph
  edges_read : Nat
  warnings : List (Nat × Nat)
deriving DecidableEq

/-- The blank-line test of the edge loop: `line[0]` is newline, carriage return or NUL. -/
def is_blank (line : List Char) : Bool :=
  first_char line = '\n' || first_char line = '\r' || first_char line = '\x00'

/-- The body of `if (row < num_vertices && col < num_vertices)` up to the counter
`edges_read`: test bit `(row, col)`; when it is 1 reset it, increment `num_edges`, and
for `row != col` reset bit `(col, row)` when that one is 1. -/
def install_edge (g : Graph) (row col : Nat) : Graph :=
  if test_bit g.adjacency_matrix row col then
    let m1 := reset_bit g.adjacency_matrix row col
    { g with
      num_edges := (g.num_edges + 1) % UINT64_RANGE
      adjacency_matrix :=
        if row ≠ col then
          if test_bit m1 col row then reset_bit m1 col row else m1
        else m1 }
  else g

/-- The decrement `row--` of a `uint64_t`. -/
def decr64 (x : Nat) : Nat := (x + (UINT64_RANGE - 1)) % UINT64_RANGE

/-- The record a buffer holds for the edge loop: `none` for a blank buffer and for one
on which `sscanf(line, "%lu %lu", &row, &col)` returns less than 2, otherwise the two
numbers read (still 1-based). -/
def parse_record (line : List Char) : Option (Nat × Nat) :=
  if is_blank line then none
  else if 2 ≤ (sscanf_lu 2 line).1 then
    some ((sscanf_lu 2 line).2.getD 0 0, (sscanf_lu 2 line).2.getD 1 0)
  else none

/-- One iteration of the edge loop (Step 6) on the buffer `line`. -/
def process_line (st : IngestState) (line : List Char) : IngestState :=
  match parse_record line with
  | none => st
  | some (r, c) =>
    if decr64 r < st.graph.num_vertices ∧ decr64 c < st.graph.num_vertices then
      { st with
        graph := install_edge st.graph (decr64 r) (decr64 c)
        edges_read := (st.edges_read + 1) % UINT64_RANGE }
    else
      { st with
        warnings := st.warnings ++
          [((decr64 r + 1) % UINT64_RANGE, (decr64 c + 1) % UINT64_RANGE)] }

/-- The edge loop over the buffers that follow the dimension line. -/
def ingest (st : IngestState) (lines : List (List Char)) : IngestState :=
  lines.foldl process_line st

/-- The ways `read_mtx_file` ends without a graph: `fopen` fails, no dimension line is
found before end of stream, or `resize` throws. -/
inductive BuildError where
  | OpenFailed : BuildError
  | BadHeader : BuildError
  | AllocFailed : BuildError
deriving DecidableEq

/-- What a successful run of `read_mtx_file` yields: the returned graph and the values
its summary prints. -/
structure Output where
  graph : Graph
  edges_read : Nat
  num_entries : Nat
  chunks_per_row : Nat
  warnings : List (Nat × Nat)
deriving DecidableEq

/-- The dimension triple found by the header loop on the stream `s`. -/
def read_header (s : List Char) : Option (Nat × Nat × Nat) :=
  (scan_header (read_lines MAX_LINE_LENGTH s)).map Prod.fst

/-- The buffers the edge loop reads on the stream `s`: those after the dimension line. -/
def edge_lines (s : List Char) : List (List Char) :=
  match scan_header (read_lines MAX_LINE_LENGTH s) with
  | none => []
  | some (_, rest) => rest

/-- The function `read_mtx_file`, on the contents of the named file. -/
def read_mtx_file (file : Option (List Char)) : Except BuildError Output :=
  match file with
  | none => Except.error BuildError.OpenFailed
  | some s =>
    match scan_header (read_lines MAX_LINE_LENGTH s) with
    | none => Except.error BuildError.BadHeader
    | some ((rows, cols, num_entries), rest) =>
      let num_vertices := vertex_count rows cols
      if vector_max_size < num_vertices then Except.error BuildError.AllocFailed
      else
        let st := ingest { graph := initial_graph num_vertices, edges_read := 0, warnings := [] } rest
        Except.ok
          { graph := st.graph
            edges_read := st.edges_read
            num_entries := num_entries
            chunks_per_row := chunks_per_row num_vertices
            warnings := st.warnings }


/-! ## Specification-side notions -/

/-- The spec's bit `(i, j)` of a matrix: bit `j mod 64` of word `j div 64` of row `i`
(a position outside the storage reads as 0). -/
def bit_at (m : List (List Nat)) (i j : Nat) : Bool :=
  ((m.getD i []).getD (j / 64) 0).testBit (j % 64)

/-- The spec's bit `(i, j)` of a graph. -/
def Graph.bit (g : Graph) (i j : Nat) : Bool :=
  bit_at g.adjacency_matrix i j

/-- The unordered pairs `{i, j}`, `i < j < N`, whose bit `(i, j)` is 0. -/
def zero_pairs (m : List (List Nat)) (N : Nat) : Finset (Nat × Nat) :=
  (Finset.range N ×ˢ Finset.range N).filter (fun p => p.1 < p.2 ∧ bit_at m p.1 p.2 = false)

/-- Shape of the storage: `N` rows of `C` words, every word a 64-bit value. -/
def Shape (N C : Nat) (m : List (List Nat)) : Prop :=
  m.length = N ∧ ∀ row ∈ m, row.length = C ∧ ∀ w ∈ row, w < 2 ^ 64

/-- The invariant of the edge loop for a graph on `N` vertices. -/
structure GraphInv (N : Nat) (g : Graph) : Prop where
  nv : g.num_vertices = N
  shape : Shape N (chunks_per_row N) g.adjacency_matrix
  range : ∀ i j, bit_at g.adjacency_matrix i j = true → i < N ∧ j < N
  symm : ∀ i j, bit_at g.adjacency_matrix i j = bit_at g.adjacency_matrix j i
  diag : ∀ i, bit_at g.adjacency_matrix i i = false
  count : g.num_edges = (zero_pairs g.adjacency_matrix N).card % 2 ^ 64

/-- The buffer `line` holds an in-bounds record for the vertex pair `{a, b}` of a graph
on `N` vertices (0-based `a`, `b`). -/
def hits (N : Nat) (line : List Char) (a b : Nat) : Prop :=
  ∃ r c, parse_record line = some (r, c) ∧ decr64 r < N ∧ decr64 c < N ∧
    ((a = decr64 r ∧ b = decr64 c) ∨ (a = decr64 c ∧ b = decr64 r))

/-- The state of the edge loop of `read_mtx_file` on the stream `s` after `k` iterations
(after the pre-fill for `k = 0`, at the end of the stream for `k` beyond the number of
buffers); `none` when the run ends before the loop starts. -/
def state_after (s : List Char) (k : Nat) : Option IngestState :=
  match scan_header (read_lines MAX_LINE_LENGTH s) with
  | none => none
  | some ((rows, cols, _), rest) =>
    if vector_max_size < vertex_count rows cols then none
    else some (ingest
      { graph := initial_graph (vertex_count rows cols), edges_read := 0, warnings := [] }
      (rest.take k))

/-- Some buffer read by the edge loop on the stream `s` parses as a record `(r, c)` with
`1 ≤ r, c ≤ N` and `{r - 1, c - 1} = {i, j}`. -/
def has_record (s : List Char) (N i j : Nat) : Prop :=
  ∃ line ∈ edge_lines s, ∃ r c, parse_record line = some (r, c) ∧
    1 ≤ r ∧ r ≤ N ∧ 1 ≤ c ∧ c ≤ N ∧ ((r - 1 = i ∧ c - 1 = j) ∨ (r - 1 = j ∧ c - 1 = i))

/-- Symmetry of the logical `N × N` matrix of a graph. -/
def SymmetricBits (N : Nat) (g : Graph) : Prop :=
  ∀ i j, i < N → j < N → g.bit i j = g.bit j i

/-- Padding: in every row, every bit whose logical column `64 * word + position` is `N` or
more is 0. -/
def Padded (N : Nat) (g : Graph) : Prop :=
  ∀ row ∈ g.adjacency_matrix, ∀ w b, b < 64 → N ≤ 64 * w + b → (row.getD w 0).testBit b = false

/-- Diagonal: bit `(i, i)` is 0 for every `i < N`. -/
def ZeroDiagonal (N : Nat) (g : Graph) : Prop :=
  ∀ i, i < N → g.bit i i = false

/-- Scenario 1 of the spec, the empty graph. -/
def empty_file : List Char := "%%MatrixMarket\n3 3 0\n".toList

/-- Scenario 2 of the spec, the triangle. -/
def triangle_file : List Char := "3 3 3\n1 2\n2 3\n1 3\n".toList

/-- Scenario 3 of the spec, duplicate and reversed records. -/
def duplicate_file : List Char := "3 3 4\n1 2\n2 1\n1 2\n1 3\n".toList

/-- Scenario 5 of the spec, non-square dimensions. -/
def nonsquare_file : List Char := "2 5 1\n1 5\n".toList

/-- An input with an edge line longer than the line buffer: the line after the dimension
line is `1 2`, sixty blanks, `2 3`, that is 67 bytes with its newline. -/
def overlong_file : List Char :=
  "3 3 1\n1 2".toList ++ List.replicate 60 ' ' ++ "2 3\n".toList

/-- A header whose vertex count is the largest `uint64_t`. -/
def huge_file : List Char := "18446744073709551615 1 0\n".toList

/-- A file with two records, and the same file with a reversed and a plain duplicate
inserted. -/
def two_edge_file : List Char := "3 3 2\n1 2\n1 3\n".toList

/-- The file `two_edge_file` with one more record appended. -/
def three_edge_file : List Char := "3 3 2\n1 2\n1 3\n2 3\n".toList

/-- The file `two_edge_file` with a reversed copy of its first record inserted before it and
copies of both records, one of them reversed, inserted after. -/
def duplicated_file : List Char := "3 3 2\n2 1\n1 2\n1 3\n1 2\n3 1\n".toList

/-- What `read_mtx_file` prints and returns on `empty_file`. -/
def empty_out : Output := ⟨⟨3, 0, [[6], [5], [3]]⟩, 0, 0, 1, []⟩

/-- What `read_mtx_file` prints and returns on `triangle_file`. -/
def triangle_out : Output := ⟨⟨3, 3, [[0], [0], [0]]⟩, 3, 3, 1, []⟩

/-- What `read_mtx_file` prints and returns on `duplicate_file`. -/
def duplicate_out : Output := ⟨⟨3, 2, [[0], [4], [2]]⟩, 4, 4, 1, []⟩

/-- What `read_mtx_file` prints and returns on `nonsquare_file`. -/
def nonsquare_out : Output := ⟨⟨5, 1, [[14], [29], [27], [23], [14]]⟩, 1, 1, 1, []⟩

/-- What `read_mtx_file` prints and returns on `overlong_file`. -/
def overlong_out : Output := ⟨⟨3, 2, [[4], [0], [1]]⟩, 2, 1, 1, []⟩

/-- The state of the edge loop on `overlong_file` after its first buffer. -/
def overlong_mid : IngestState := ⟨⟨3, 1, [[4], [4], [3]]⟩, 1, []⟩

/-- What `read_mtx_file` prints and returns on `two_edge_file`. -/
def two_edge_out : Output := ⟨⟨3, 2, [[0], [4], [2]]⟩, 2, 2, 1, []⟩

/-- The text `A` is empty or ends with a newline, so that what follows it in a file starts a
new line. -/
def LineEnded (A : List Char) : Prop :=
  A = [] ∨ A.getLast? = some '\n'


/-- The outcome of parsing a buffer is a record whose two coordinates both lie in `1..N`. -/
def valid_parsed (N : Nat) : Option (Nat × Nat) → Bool
  | none => false
  | some (r, c) => decide (1 ≤ r ∧ r ≤ N ∧ 1 ≤ c ∧ c ≤ N)

/-- The buffer holds a record whose two coordinates both lie in `1..N`. -/
def valid_record (N : Nat) (line : List Char) : Bool :=
  valid_parsed N (parse_record line)

/-- Scenario 4 of the spec, an out-of-bounds record. -/
def oob_file : List Char := "3 3 2\n1 2\n4 1\n".toList

/-- What `read_mtx_file` prints and returns on `oob_file`. -/
def oob_out : Output := ⟨⟨3, 1, [[4], [4], [3]]⟩, 1, 2, 1, [(4, 1)]⟩

/-- The state of the edge loop on `oob_file` after its first record. -/
def oob_mid : IngestState := ⟨⟨3, 1, [[4], [4], [3]]⟩, 1, []⟩

/-- The install step without its two inner guards: when bit `(row, col)` is 1, reset bit
`(row, col)` and bit `(col, row)` and increment `num_edges`. -/
def install_edge_unguarded (g : Graph) (row col : Nat) : Graph :=
  if test_bit g.adjacency_matrix row col then
    { g with
      num_edges := (g.num_edges + 1) % UINT64_RANGE
      adjacency_matrix := reset_bit (reset_bit g.adjacency_matrix row col) col row }
  else g

/-- One iteration of the edge loop with the install step replaced by the one without the
inner guards. -/
def process_line_unguarded (st : IngestState) (line : List Char) : IngestState :=
  match parse_record line with
  | none => st
  | some (r, c) =>
    if decr64 r < st.graph.num_vertices ∧ decr64 c < st.graph.num_vertices then
      { st with
        graph := install_edge_unguarded st.graph (decr64 r) (decr64 c)
        edges_read := (st.edges_read + 1) % UINT64_RANGE }
    else
      { st with
        warnings := st.warnings ++
          [((decr64 r + 1) % UINT64_RANGE, (decr64 c + 1) % UINT64_RANGE)] }

/-- The length of the run of zero bits at the high-order end of the low `k` bits of `w`:
positions are counted down from `k - 1`. -/
def high_zero_run : Nat → Nat → Nat
  | 0, _ => 0
  | k + 1, w => if w.testBit k then 0 else high_zero_run k w + 1

/-- The number of trailing zero bits of a 64-bit word in the spec's sense: the run of zero
bits at the high-order end, positions counted down from 63. -/
def trailing_zero_bits (w : Nat) : Nat := high_zero_run 64 w

/-- The last word of a row. -/
def last_word (row : List Nat) : Nat := row.getD (row.length - 1) 0

/-- The index pair `(i, chunk)` of an access `adjacency_matrix[i][chunk]` lies inside the
storage `m`. -/
def in_bounds (m : List (List Nat)) (a : Nat × Nat) : Prop :=
  a.1 < m.length ∧ a.2 < (m.getD a.1 []).length

/-- The index pairs of the accesses `adjacency_matrix[i][i >> 6]` made by the diagonal
loop. -/
def reset_diagonal_accesses (num_vertices : Nat) : List (Nat × Nat) :=
  (List.range num_vertices).map (fun i => (i, i >>> 6))

/-- The index pairs of the accesses made by the install step for the pair `(row, col)`, in
program order: the test of `adjacency_matrix[row][col >> 6]`, then, when the bit is 1, its
reset and, for `row != col`, the test of `adjacency_matrix[col][row >> 6]` followed by its
reset when that bit is 1. -/
def install_edge_accesses (g : Graph) (row col : Nat) : List (Nat × Nat) :=
  (row, col >>> 6) ::
    (if test_bit g.adjacency_matrix row col then
      (row, col >>> 6) ::
        (if row ≠ col then
          (col, row >>> 6) ::
            (if test_bit (reset_bit g.adjacency_matrix row col) col row
             then [(col, row >>> 6)] else [])
         else [])
     else [])

/-- The value `print_size` of `print_adjacency_matrix`: `num_vertices`, cut to `max_size`. -/
def print_size (g : Graph) (max_size : Nat) : Nat :=
  if g.num_vertices > max_size then max_size else g.num_vertices

/-- The cells `print_adjacency_matrix` prints, row by row: 1 for a set bit, 0 otherwise. -/
def print_adjacency_matrix (g : Graph) (max_size : Nat) : List (List Nat) :=
  (List.range (print_size g max_size)).map (fun i =>
    (List.range (print_size g max_size)).map (fun j =>
      if test_bit g.adjacency_matrix i j then 1 else 0))

/-- The index pairs of the accesses `adjacency_matrix[i][j >> 6]` made by
`print_adjacency_matrix`. -/
def print_adjacency_matrix_accesses (g : Graph) (max_size : Nat) : List (Nat × Nat) :=
  (List.range (print_size g max_size)).flatMap (fun i =>
    (List.range (print_size g max_size)).map (fun j => (i, j >>> 6)))

/-- A file whose first line is a comment of 69 bytes (with its newline), `%`, 62 letters `x`
and `7 7 0`, placed ahead of the dimension line `3 3 0`. -/
def long_comment_file : List Char :=
  '%' :: List.replicate 62 'x' ++ "7 7 0\n3 3 0\n".toList

/-- The file `long_comment_file` without its comment line. -/
def no_comment_file : List Char := "3 3 0\n".toList

/-- What `read_mtx_file` prints and returns on `long_comment_file`. -/
def long_comment_out : Output :=
  ⟨⟨7, 0, [[126], [125], [123], [119], [111], [95], [63]]⟩, 1, 0, 1, []⟩

/-- What `read_mtx_file` prints and returns on `no_comment_file`. -/
def no_comment_out : Output := ⟨⟨3, 0, [[6], [5], [3]]⟩, 0, 0, 1, []⟩

/-- The effect of the edge loop on a piece of text that starts at a line boundary of the
stream: the loop runs over the buffers `fgets` fills from it. -/
def process_text (st : IngestState) (text : List Char) : IngestState :=
  ingest st (read_lines MAX_LINE_LENGTH text)

/-- An edge line `1 2 w` of 67 bytes (with its newline) whose trailing token `w` is 59
letters `x` followed by `2+3`. -/
def long_weight_line : List Char :=
  "1 2 ".toList ++ List.replicate 59 'x' ++ "2+3\n".toList

/-- The edge line `1 2`. -/
def plain_line : List Char := "1 2\n".toList

/-- Scenario 6 of the spec, a weighted line. -/
def weighted_file : List Char := "2 2 1\n1 2 3.14\n".toList

/-- What `read_mtx_file` prints and returns on `weighted_file`. -/
def weighted_out : Output := ⟨⟨2, 1, [[0], [0]]⟩, 1, 1, 1, []⟩

/-- The header loop skips the buffer `line`: it is a comment, or `sscanf` does not read three
numbers from it. -/
def skipped_by_header_scan (line : List Char) : Prop :=
  first_char line = '%' ∨ (sscanf_lu 3 line).1 ≠ 3

/-- The triple `sscanf(line, "%lu %lu %lu", ...)` assigns. -/
def triple_of (line : List Char) : Nat × Nat × Nat :=
  ((sscanf_lu 3 line).2.getD 0 0, (sscanf_lu 3 line).2.getD 1 0, (sscanf_lu 3 line).2.getD 2 0)

/-- A file with a comment, a line that is not a dimension triple, and then two triples. -/
def junk_header_file : List Char := "% c\n3 3\n4 5 1\n1 2 3\n".toList

/-- The value `strtoul` yields for a string of decimal digits: `ULONG_MAX` when the number
does not fit 64 bits. -/
def strtoul_digits (ds : List Char) : Nat :=
  if UINT64_RANGE ≤ digits_value ds then UINT64_RANGE - 1 else digits_value ds

/-- A non-empty string of decimal digits: the text of an unsigned integer. -/
def is_number_text (ds : List Char) : Prop :=
  ds ≠ [] ∧ ∀ ch ∈ ds, isdigit ch = true

/-- The trailing token of `long_weight_line`. -/
def long_weight_token : List Char := List.replicate 59 'x' ++ "2+3".toList

/-- The state in which the edge loop starts on a graph with 3 vertices. -/
def start_state_3 : IngestState := ⟨initial_graph 3, 0, []⟩

/-- The state the edge loop reaches from `start_state_3` on `long_weight_line`. -/
def long_weight_state : IngestState := ⟨⟨3, 2, [[4], [0], [1]]⟩, 2, []⟩

/-- The state the edge loop reaches from `start_state_3` on `plain_line`. -/
def plain_state : IngestState := ⟨⟨3, 1, [[4], [4], [3]]⟩, 1, []⟩

/-- The file `two_edge_file` with its two records in the other order. -/
def swapped_file : List Char := "3 3 2\n1 3\n1 2\n".toList

/-- A file without a dimension line: a comment and a line with two numbers. -/
def headerless_file : List Char := "% c\n3 3\n".toList

/-! ## Reading lines: the bound on the number of fgets calls is never reached -/

theorem fgets_take_append (room : Nat) (s : List Char) :
    (fgets_take room s).1 ++ (fgets_take room s).2 = s := by
  induction room generalizing s with
  | zero => simp [fgets_take]
  | succ n ih =>
    cases s with
    | nil => simp [fgets_take]
    | cons c t =>
      unfold fgets_take
      split
      · simp
      · simp [ih t]

theorem fgets_take_rest_length (room : Nat) (c : Char) (t : List Char) :
    (fgets_take (room + 1) (c :: t)).2.length ≤ t.length := by
  have h := congrArg List.length (fgets_take_append room t)
  rw [List.length_append] at h
  unfold fgets_take
  split
  · simp
  · simp only
    omega

theorem read_lines_fuel_succ (n fuel : Nat) (c : Char) (t : List Char) :
    read_lines_fuel (n + 2) (fuel + 1) (c :: t)
      = (fgets_take (n + 1) (c :: t)).1
          :: read_lines_fuel (n + 2) fuel (fgets_take (n + 1) (c :: t)).2 := by
  rw [read_lines_fuel]
  simp [fgets]

/-- Any number of `fgets` calls that is at least the length of the stream gives the same
lines: the loop ends by end of stream, not by the bound. -/
theorem read_lines_fuel_enough (n : Nat) (fuel fuel' : Nat) (s : List Char)
    (h : s.length ≤ fuel) (h' : s.length ≤ fuel') :
    read_lines_fuel (n + 2) fuel s = read_lines_fuel (n + 2) fuel' s := by
  induction fuel generalizing fuel' s with
  | zero =>
    have hs : s = [] := List.eq_nil_of_length_eq_zero (by omega)
    subst hs
    cases fuel' with
    | zero => rfl
    | succ k => simp [read_lines_fuel, fgets]
  | succ k ih =>
    cases s with
    | nil =>
      cases fuel' with
      | zero => simp [read_lines_fuel, fgets]
      | succ k' => simp [read_lines_fuel, fgets]
    | cons c t =>
      cases fuel' with
      | zero => simp at h'
      | succ k' =>
        rw [read_lines_fuel_succ, read_lines_fuel_succ]
        congr 1
        have hl := fgets_take_rest_length n c t
        simp only [List.length_cons] at h h'
        exact ih k' _ (by omega) (by omega)

/-- The loop reads the whole stream: the lines, put end to end, are the stream. -/
theorem read_lines_join (n : Nat) (s : List Char) : (read_lines (n + 2) s).flatten = s := by
  unfold read_lines
  generalize hk : s.length = k
  induction k using Nat.strong_induction_on generalizing s with
  | _ k ih =>
    cases s with
    | nil =>
      subst hk
      simp [read_lines_fuel]
    | cons c t =>
      simp only [List.length_cons] at hk
      subst hk
      rw [read_lines_fuel_succ, List.flatten_cons]
      have hl := fgets_take_rest_length n c t
      rw [read_lines_fuel_enough n _ (fgets_take (n + 1) (c :: t)).2.length _ hl (le_refl _),
        ih _ (by omega) _ rfl]
      exact fgets_take_append _ _

theorem read_lines_nil (size : Nat) : read_lines size [] = [] := by
  simp [read_lines, read_lines_fuel]

theorem read_lines_cons (n : Nat) (c : Char) (t : List Char) :
    read_lines (n + 2) (c :: t)
      = (fgets_take (n + 1) (c :: t)).1 :: read_lines (n + 2) (fgets_take (n + 1) (c :: t)).2 := by
  unfold read_lines
  rw [List.length_cons, read_lines_fuel_succ]
  congr 1
  exact read_lines_fuel_enough n _ _ _ (fgets_take_rest_length n c t) (le_refl _)

theorem LineEnded.tail {c : Char} {t : List Char} (h : LineEnded (c :: t)) : LineEnded t := by
  cases t with
  | nil => exact Or.inl rfl
  | cons d u =>
    rcases h with h | h
    · exact List.noConfusion h
    · right
      rw [List.getLast?_cons_cons] at h
      exact h

theorem fgets_take_of_append (room : Nat) (A B : List Char) (hA : LineEnded A) :
    fgets_take room (A ++ B) = ((fgets_take room A).1, (fgets_take room A).2 ++ B) ∨ A = [] := by
  induction room generalizing A with
  | zero =>
    left
    simp [fgets_take]
  | succ n ih =>
    cases A with
    | nil => exact Or.inr rfl
    | cons c t =>
      left
      rw [List.cons_append]
      unfold fgets_take
      by_cases hc : c = '\n'
      · simp [hc]
      · simp only [hc, if_false]
        rcases ih t hA.tail with h | h
        · rw [h]
        · subst h
          rcases hA with hA | hA
          · exact List.noConfusion hA
          · simp only [List.getLast?_singleton, Option.some.injEq] at hA
            exact absurd hA hc

theorem fgets_take_rest_lineEnded (room : Nat) (A : List Char) (hA : LineEnded A) :
    LineEnded (fgets_take room A).2 := by
  induction room generalizing A with
  | zero => simpa [fgets_take] using hA
  | succ n ih =>
    cases A with
    | nil => exact Or.inl rfl
    | cons c t =>
      unfold fgets_take
      split
      · exact hA.tail
      · exact ih t hA.tail

/-- Text placed after a newline is read as lines of its own: the lines of `A ++ B` are the
lines of `A` followed by the lines of `B` when `A` is empty or ends with a newline. -/
theorem read_lines_append (n : Nat) (A B : List Char) (hA : LineEnded A) :
    read_lines (n + 2) (A ++ B) = read_lines (n + 2) A ++ read_lines (n + 2) B := by
  generalize hk : A.length = k
  induction k using Nat.strong_induction_on generalizing A with
  | _ k ih =>
    cases A with
    | nil => simp [read_lines_nil]
    | cons c t =>
      rw [read_lines_cons n c t, List.cons_append, read_lines_cons n c (t ++ B)]
      have h1 := fgets_take_of_append (n + 1) (c :: t) B hA
      rw [List.cons_append] at h1
      rcases h1 with h1 | h1
      · rw [h1]
        simp only [List.cons_append]
        congr 1
        have hl := fgets_take_rest_length n c t
        simp only [List.length_cons] at hk
        exact ih _ (by omega) _ (fgets_take_rest_lineEnded _ _ hA) rfl
      · exact List.noConfusion h1

theorem scan_header_append {L : List (List Char)} {d : Nat × Nat × Nat} {rest : List (List Char)}
    (h : scan_header L = some (d, rest)) (L' : List (List Char)) :
    scan_header (L ++ L') = some (d, rest ++ L') := by
  induction L with
  | nil => simp [scan_header] at h
  | cons l ls ih =>
    rw [List.cons_append]
    unfold scan_header at h ⊢
    split
    · next hc =>
      rw [if_pos hc] at h
      exact ih h
    · next hc =>
      rw [if_neg hc] at h
      split
      · next h3 =>
        rw [if_pos h3] at h
        injection h with h
        injection h with h1 h2
        rw [h1, h2]
      · next h3 =>
        rw [if_neg h3] at h
        exact ih h

/-- Appending text to an accepted file that ends with a newline leaves the dimension line
as it is and adds the lines of the text to the lines the edge loop reads. -/
theorem append_text {F : List Char} {d : Nat × Nat × Nat} (hF : LineEnded F)
    (hd : read_header F = some d) (A : List Char) :
    read_header (F ++ A) = some d ∧
      edge_lines (F ++ A) = edge_lines F ++ read_lines MAX_LINE_LENGTH A := by
  unfold read_header edge_lines at *
  have happ : read_lines MAX_LINE_LENGTH (F ++ A)
      = read_lines MAX_LINE_LENGTH F ++ read_lines MAX_LINE_LENGTH A :=
    read_lines_append 62 F A hF
  cases hs : scan_header (read_lines MAX_LINE_LENGTH F) with
  | none =>
    rw [hs] at hd
    exact Option.noConfusion hd
  | some p =>
    obtain ⟨d', rest⟩ := p
    rw [hs] at hd
    simp only [Option.map_some', Option.some.injEq] at hd
    subst hd
    rw [happ, scan_header_append hs]
    exact ⟨rfl, rfl⟩

/-- Inserting text `X` that ends with a newline between a part `A` of an accepted file that
ends with a newline and holds the dimension line, and the rest `B` of the file: the
dimension line is unchanged and the lines of `X` are inserted among the lines the edge loop
reads. -/
theorem insert_text {A : List Char} {d : Nat × Nat × Nat} (hA : LineEnded A)
    (hd : read_header A = some d) (X B : List Char) (hX : LineEnded X) :
    read_header (A ++ (X ++ B)) = read_header (A ++ B) ∧
      edge_lines (A ++ B) = edge_lines A ++ read_lines MAX_LINE_LENGTH B ∧
      edge_lines (A ++ (X ++ B))
        = edge_lines A ++ (read_lines MAX_LINE_LENGTH X ++ read_lines MAX_LINE_LENGTH B) := by
  obtain ⟨h1, h2⟩ := append_text hA hd B
  obtain ⟨h3, h4⟩ := append_text hA hd (X ++ B)
  have h5 : read_lines MAX_LINE_LENGTH (X ++ B)
      = read_lines MAX_LINE_LENGTH X ++ read_lines MAX_LINE_LENGTH B :=
    read_lines_append 62 X B hX
  rw [h5] at h4
  exact ⟨by rw [h1, h3], h2, h4⟩


/-! ## Bitset lemmas -/

theorem shift6_eq_div (j : Nat) : j >>> 6 = j / 64 := by
  rw [Nat.shiftRight_eq_div_pow]

theorem mask6_eq_mod (j : Nat) : j &&& 0b111111 = j % 64 := by
  have h := Nat.and_pow_two_sub_one_eq_mod j 6
  simpa using h

theorem bitset_reset_testBit (w p k : Nat) :
    (bitset_reset w p).testBit k = (w.testBit k && !decide (p = k)) := by
  unfold bitset_reset
  rw [Nat.testBit_xor, Nat.testBit_and, Nat.testBit_two_pow]
  cases w.testBit k <;> by_cases h : p = k <;> simp [h]

theorem testBit_false_of_lt_word {w : Nat} (hw : w < 2 ^ 64) {k : Nat} (hk : 64 ≤ k) :
    w.testBit k = false :=
  Nat.testBit_lt_two_pow (lt_of_lt_of_le hw (Nat.pow_le_pow_right (by decide) hk))

theorem bitset_reset_lt {w : Nat} (hw : w < 2 ^ 64) (p : Nat) : bitset_reset w p < 2 ^ 64 := by
  apply Nat.lt_pow_two_of_testBit
  intro i hi
  rw [bitset_reset_testBit, testBit_false_of_lt_word hw hi]
  rfl

theorem bitset_set_testBit (w k : Nat) : (bitset_set w).testBit k = decide (k < 64) := by
  unfold bitset_set
  exact Nat.testBit_two_pow_sub_one 64 k

theorem bitset_set_lt (w : Nat) : bitset_set w < 2 ^ 64 := by
  unfold bitset_set
  decide

/-! ## Matrix access lemmas -/

theorem Shape.row_length {N C : Nat} {m : List (List Nat)} (h : Shape N C m) {i : Nat}
    (hi : i < N) : (m.getD i []).length = C := by
  have hlen : i < m.length := by rw [h.1]; exact hi
  have : m.getD i [] = m[i] := by
    rw [List.getD_eq_getElem?_getD, List.getElem?_eq_getElem hlen]; rfl
  rw [this]
  exact (h.2 _ (List.getElem_mem hlen)).1

theorem word_at_word_put (m : List (List Nat)) (i c w a b : Nat)
    (hi : i < m.length) (hc : c < (m.getD i []).length) :
    word_at (word_put m i c w) a b = if a = i ∧ b = c then w else word_at m a b := by
  unfold word_at word_put
  simp only [List.getD_eq_getElem?_getD, List.getElem?_set]
  by_cases hai : a = i
  · subst hai
    simp only [hi, if_true, Option.getD_some, true_and]
    simp only [List.getD_eq_getElem?_getD] at hc
    by_cases hbc : b = c
    · subst hbc
      simp [hc]
    · have : ¬ c = b := fun h => hbc h.symm
      simp [hbc, this]
  · have : ¬ i = a := fun h => hai h.symm
    simp [hai, this]

theorem test_bit_reset_bit (m : List (List Nat)) (i j a b : Nat)
    (hi : i < m.length) (hj : j / 64 < (m.getD i []).length) :
    test_bit (reset_bit m i j) a b = (test_bit m a b && !decide (a = i ∧ b = j)) := by
  unfold test_bit reset_bit bitset_test
  rw [word_at_word_put m i _ _ a _ hi (by rw [shift6_eq_div]; exact hj)]
  simp only [shift6_eq_div, mask6_eq_mod]
  by_cases hai : a = i
  · subst hai
    by_cases hq : b / 64 = j / 64
    · simp only [hq, and_self, if_true, bitset_reset_testBit, true_and]
      by_cases hr : j % 64 = b % 64
      · have : b = j := by omega
        subst this
        simp
      · have : ¬ b = j := by
          intro h; subst h; exact hr rfl
        simp [hr, this]
    · have : ¬ b = j := by
        intro h; subst h; exact hq rfl
      simp [hq, this]
  · simp [hai]

theorem Shape.reset_bit {N C : Nat} {m : List (List Nat)} (h : Shape N C m) (i j : Nat) :
    Shape N C (reset_bit m i j) := by
  unfold Clique.reset_bit word_put
  refine ⟨by rw [List.length_set]; exact h.1, ?_⟩
  intro row hrow
  by_cases hi : i < m.length
  · rcases List.mem_or_eq_of_mem_set hrow with hmem | heq
    · exact h.2 row hmem
    · subst heq
      have hget : m.getD i [] = m[i] := by
        rw [List.getD_eq_getElem?_getD, List.getElem?_eq_getElem hi]; rfl
      have hrowi := h.2 _ (List.getElem_mem hi)
      rw [hget]
      refine ⟨by rw [List.length_set]; exact hrowi.1, ?_⟩
      intro w hw
      rcases List.mem_or_eq_of_mem_set hw with hmem | heq
      · exact hrowi.2 w hmem
      · subst heq
        apply bitset_reset_lt
        unfold word_at
        rw [hget]
        by_cases hc : j >>> 6 < m[i].length
        · rw [List.getD_eq_getElem?_getD, List.getElem?_eq_getElem hc]
          exact hrowi.2 _ (List.getElem_mem hc)
        · rw [List.getD_eq_getElem?_getD, List.getElem?_eq_none (by omega)]
          decide
  · rw [List.set_eq_of_length_le (by omega)] at hrow
    exact h.2 row hrow


/-! ## The pre-fill -/

theorem chunks_per_row_eq {N : Nat} (hN : N + 63 < 2 ^ 64) : chunks_per_row N = (N + 63) / 64 := by
  unfold chunks_per_row UINT64_RANGE
  rw [Nat.mod_eq_of_lt hN, shift6_eq_div]

theorem vector_max_size_lt : vector_max_size + 63 < 2 ^ 64 := by
  unfold vector_max_size
  decide

theorem foldl_reset_testBit (P : Nat → Prop) [DecidablePred P] (L : List Nat) (w k : Nat) :
    (L.foldl (fun acc bit => if P bit then bitset_reset acc bit else acc) w).testBit k
      = (w.testBit k && !decide (k ∈ L ∧ P k)) := by
  induction L generalizing w with
  | nil => simp
  | cons x xs ih =>
    rw [List.foldl_cons, ih]
    by_cases hx : P x
    · rw [if_pos hx, bitset_reset_testBit]
      by_cases hxk : x = k
      · subst hxk
        simp [hx]
      · have : ¬ k = x := fun h => hxk h.symm
        simp [hxk, this]
    · rw [if_neg hx]
      by_cases hxk : k = x
      · subst hxk
        simp [hx]
      · simp [hxk]

theorem foldl_reset_lt (P : Nat → Prop) [DecidablePred P] (L : List Nat) (w : Nat)
    (hw : w < 2 ^ 64) :
    L.foldl (fun acc bit => if P bit then bitset_reset acc bit else acc) w < 2 ^ 64 := by
  induction L generalizing w with
  | nil => simpa using hw
  | cons x xs ih =>
    rw [List.foldl_cons]
    apply ih
    split
    · exact bitset_reset_lt hw x
    · exact hw

theorem init_chunk_lt (N C chunk : Nat) : init_chunk N C chunk < 2 ^ 64 := by
  unfold init_chunk
  split
  · exact foldl_reset_lt _ _ _ (bitset_set_lt 0)
  · exact bitset_set_lt 0

theorem init_chunk_testBit {N : Nat} (hN : N + 63 < 2 ^ 64) {chunk : Nat}
    (hc : chunk < chunks_per_row N) (b : Nat) :
    (init_chunk N (chunks_per_row N) chunk).testBit b
      = decide (b < 64 ∧ chunk * 64 + b < N) := by
  rw [chunks_per_row_eq hN] at hc ⊢
  unfold init_chunk UINT64_RANGE
  have hC : (N + 63) / 64 + (2 ^ 64 - 1) = ((N + 63) / 64 - 1) + 2 ^ 64 := by omega
  have hC2 : (N + 63) / 64 - 1 < 2 ^ 64 := by omega
  rw [hC, Nat.add_mod_right, Nat.mod_eq_of_lt hC2]
  by_cases hlast : chunk = (N + 63) / 64 - 1
  · rw [if_pos hlast, foldl_reset_testBit, bitset_set_testBit]
    rw [Nat.shiftLeft_eq]
    have h1 : chunk * 2 ^ 6 < 2 ^ 64 := by omega
    rw [Nat.mod_eq_of_lt h1]
    by_cases hb : b < 64
    · have h2 : chunk * 2 ^ 6 + b < 2 ^ 64 := by omega
      rw [Nat.mod_eq_of_lt h2]
      by_cases hlt : chunk * 64 + b < N
      · have : ¬ N ≤ chunk * 2 ^ 6 + b := by omega
        simp [hb, hlt, this]
      · have : N ≤ chunk * 2 ^ 6 + b := by omega
        have hlt2 : N ≤ chunk * 64 + b := by omega
        simp [hb, hlt2, this]
    · simp [hb]
  · rw [if_neg hlast, bitset_set_testBit]
    by_cases hb : b < 64
    · have : chunk * 64 + b < N := by omega
      simp [hb, this]
    · simp [hb]

theorem init_matrix_shape (N C : Nat) : Shape N C (init_matrix N C) := by
  unfold init_matrix init_row
  refine ⟨by simp, ?_⟩
  intro row hrow
  rw [List.mem_map] at hrow
  obtain ⟨_, _, rfl⟩ := hrow
  refine ⟨by simp, ?_⟩
  intro w hw
  rw [List.mem_map] at hw
  obtain ⟨c, _, rfl⟩ := hw
  exact init_chunk_lt N C c

theorem word_at_init_matrix (N C i c : Nat) :
    word_at (init_matrix N C) i c = if i < N ∧ c < C then init_chunk N C c else 0 := by
  unfold word_at init_matrix init_row
  simp only [List.getD_eq_getElem?_getD, List.getElem?_map, List.getElem?_range]
  by_cases hi : i < N
  · by_cases hc : c < C
    · simp [hi, hc, List.getElem?_range]
    · have h1 : (List.range C)[c]? = none := List.getElem?_eq_none (by simp; omega)
      simp [hi, hc, List.getElem?_range, h1]
  · have h1 : (List.range N)[i]? = none := List.getElem?_eq_none (by simp; omega)
    simp [hi, h1]

theorem test_bit_init_matrix {N : Nat} (hN : N + 63 < 2 ^ 64) (i j : Nat) :
    test_bit (init_matrix N (chunks_per_row N)) i j = decide (i < N ∧ j < N) := by
  unfold test_bit bitset_test
  rw [word_at_init_matrix, shift6_eq_div, mask6_eq_mod]
  have hC := chunks_per_row_eq hN
  by_cases hi : i < N
  · by_cases hc : j / 64 < chunks_per_row N
    · rw [if_pos ⟨hi, hc⟩, init_chunk_testBit hN hc]
      have hm : j % 64 < 64 := Nat.mod_lt _ (by decide)
      have he : j / 64 * 64 + j % 64 = j := by omega
      simp [hi, hm, he]
    · have : ¬ j < N := by omega
      simp [hi, hc, this]
  · simp [hi]

theorem reset_diagonal_shape {N C : Nat} (k : Nat) {m : List (List Nat)} (h : Shape N C m) :
    Shape N C (reset_diagonal k m) := by
  unfold reset_diagonal
  induction k with
  | zero => simpa using h
  | succ k ih =>
    rw [List.range_succ, List.foldl_append]
    exact Shape.reset_bit ih k k

theorem test_bit_reset_diagonal {N : Nat} (hN : N + 63 < 2 ^ 64) {m : List (List Nat)}
    (h : Shape N (chunks_per_row N) m) (k : Nat) (hk : k ≤ N) (a b : Nat) :
    test_bit (reset_diagonal k m) a b = (test_bit m a b && !decide (a = b ∧ a < k)) := by
  induction k with
  | zero => simp [reset_diagonal]
  | succ k ih =>
    have hk2 : k ≤ N := by omega
    have hs : Shape N (chunks_per_row N) (reset_diagonal k m) := reset_diagonal_shape k h
    have hstep : reset_diagonal (k + 1) m = reset_bit (reset_diagonal k m) k k := by
      unfold reset_diagonal
      rw [List.range_succ, List.foldl_append]
      rfl
    have hC := chunks_per_row_eq hN
    rw [hstep, test_bit_reset_bit _ _ _ _ _ (by rw [hs.1]; omega)
      (by rw [hs.row_length (by omega)]; omega), ih hk2]
    by_cases hab : a = b
    · subst hab
      by_cases hak : a = k
      · subst hak
        simp
      · by_cases hlt : a < k
        · have : a < k + 1 := by omega
          simp [hlt, this]
        · have : ¬ a < k + 1 := by omega
          simp [hak, hlt, this]
    · have : ¬ (a = k ∧ b = k) := by omega
      simp [hab, this]

theorem initial_graph_shape (N : Nat) :
    Shape N (chunks_per_row N) (initial_graph N).adjacency_matrix :=
  reset_diagonal_shape N (init_matrix_shape N _)

theorem test_bit_initial_graph {N : Nat} (hN : N + 63 < 2 ^ 64) (i j : Nat) :
    test_bit (initial_graph N).adjacency_matrix i j = decide (i < N ∧ j < N ∧ i ≠ j) := by
  unfold initial_graph
  simp only
  rw [test_bit_reset_diagonal hN (init_matrix_shape N _) N (le_refl N), test_bit_init_matrix hN]
  by_cases hi : i < N <;> by_cases hj : j < N <;> by_cases hij : i = j <;> simp [hi, hj, hij]


/-! ## The edge loop -/

theorem test_bit_eq_bit_at (m : List (List Nat)) (i j : Nat) : test_bit m i j = bit_at m i j := by
  unfold test_bit bit_at bitset_test word_at
  rw [shift6_eq_div, mask6_eq_mod]

theorem bit_at_reset_bit {N : Nat} (hN : N + 63 < 2 ^ 64) {m : List (List Nat)}
    (h : Shape N (chunks_per_row N) m) {i j : Nat} (hi : i < N) (hj : j < N) (a b : Nat) :
    bit_at (reset_bit m i j) a b = (bit_at m a b && !decide (a = i ∧ b = j)) := by
  have hC := chunks_per_row_eq hN
  rw [← test_bit_eq_bit_at, ← test_bit_eq_bit_at,
    test_bit_reset_bit _ _ _ _ _ (by rw [h.1]; exact hi) (by rw [h.row_length hi]; omega)]

theorem mem_zero_pairs (m : List (List Nat)) (N a b : Nat) :
    (a, b) ∈ zero_pairs m N ↔ a < b ∧ b < N ∧ bit_at m a b = false := by
  unfold zero_pairs
  simp only [Finset.mem_filter, Finset.mem_product, Finset.mem_range]
  constructor
  · rintro ⟨⟨_, h2⟩, h3, h4⟩
    exact ⟨h3, h2, h4⟩
  · rintro ⟨h1, h2, h3⟩
    exact ⟨⟨by omega, h2⟩, h1, h3⟩

theorem zero_pairs_insert {N : Nat} {m m' : List (List Nat)} {x y : Nat} (hxy : x < y)
    (hy : y < N) (hold : bit_at m x y = true)
    (hnew : ∀ a b, a < b → bit_at m' a b = (bit_at m a b && !decide (a = x ∧ b = y))) :
    (zero_pairs m' N).card = (zero_pairs m N).card + 1 := by
  have hnot : (x, y) ∉ zero_pairs m N := by
    rw [mem_zero_pairs]
    rintro ⟨_, _, h⟩
    rw [hold] at h
    exact Bool.noConfusion h
  have heq : zero_pairs m' N = insert (x, y) (zero_pairs m N) := by
    ext ⟨a, b⟩
    rw [Finset.mem_insert, mem_zero_pairs, mem_zero_pairs, Prod.mk.injEq]
    constructor
    · rintro ⟨hab, hb, hbit⟩
      rw [hnew a b hab] at hbit
      by_cases hp : a = x ∧ b = y
      · exact Or.inl hp
      · right
        refine ⟨hab, hb, ?_⟩
        simpa [hp] using hbit
    · rintro (⟨rfl, rfl⟩ | ⟨hab, hb, hbit⟩)
      · refine ⟨hxy, hy, ?_⟩
        rw [hnew a b hxy]
        simp
      · refine ⟨hab, hb, ?_⟩
        rw [hnew a b hab, hbit]
        rfl
  rw [heq, Finset.card_insert_of_not_mem hnot]

theorem install_edge_bits {N : Nat} (hN : N + 63 < 2 ^ 64) {g : Graph} (h : GraphInv N g)
    {row col : Nat} (hr : row < N) (hc : col < N) (a b : Nat) :
    bit_at (install_edge g row col).adjacency_matrix a b
      = (bit_at g.adjacency_matrix a b
          && !decide ((a = row ∧ b = col) ∨ (a = col ∧ b = row))) := by
  unfold install_edge
  rw [test_bit_eq_bit_at]
  by_cases ht : bit_at g.adjacency_matrix row col = true
  · have hne : row ≠ col := by
      intro he
      subst he
      rw [h.diag] at ht
      exact Bool.noConfusion ht
    have hs1 := Shape.reset_bit h.shape row col
    have hmirror : bit_at (reset_bit g.adjacency_matrix row col) col row = true := by
      rw [bit_at_reset_bit hN h.shape hr hc, h.symm col row, ht]
      have : ¬ (col = row ∧ row = col) := fun hh => hne hh.2
      simp [this]
    simp only [if_pos ht, test_bit_eq_bit_at, hmirror, if_true, hne, ne_eq, not_false_eq_true]
    rw [bit_at_reset_bit hN hs1 hc hr, bit_at_reset_bit hN h.shape hr hc]
    by_cases h1 : a = row ∧ b = col <;> by_cases h2 : a = col ∧ b = row <;> simp [h1, h2]
  · rw [if_neg ht]
    have hf : bit_at g.adjacency_matrix row col = false := by
      cases hb : bit_at g.adjacency_matrix row col
      · rfl
      · exact absurd hb ht
    by_cases h1 : a = row ∧ b = col
    · obtain ⟨rfl, rfl⟩ := h1
      simp [hf]
    · by_cases h2 : a = col ∧ b = row
      · obtain ⟨rfl, rfl⟩ := h2
        rw [h.symm, hf]
        rfl
      · simp [h1, h2]

theorem install_edge_inv {N : Nat} (hN : N + 63 < 2 ^ 64) {g : Graph} (h : GraphInv N g)
    {row col : Nat} (hr : row < N) (hc : col < N) : GraphInv N (install_edge g row col) := by
  have hbits := install_edge_bits hN h hr hc
  refine ⟨?_, ?_, ?_, ?_, ?_, ?_⟩
  · unfold install_edge
    split
    · exact h.nv
    · exact h.nv
  · unfold install_edge
    split
    · simp only
      split
      · split
        · exact Shape.reset_bit (Shape.reset_bit h.shape _ _) _ _
        · exact Shape.reset_bit h.shape _ _
      · exact Shape.reset_bit h.shape _ _
    · exact h.shape
  · intro i j hij
    rw [hbits] at hij
    apply h.range
    cases hb : bit_at g.adjacency_matrix i j
    · rw [hb] at hij
      exact Bool.noConfusion hij
    · rfl
  · intro i j
    rw [hbits, hbits, h.symm i j]
    congr 2
    apply decide_eq_decide.mpr
    constructor
    · rintro (⟨h1, h2⟩ | ⟨h1, h2⟩)
      · exact Or.inr ⟨h2, h1⟩
      · exact Or.inl ⟨h2, h1⟩
    · rintro (⟨h1, h2⟩ | ⟨h1, h2⟩)
      · exact Or.inr ⟨h2, h1⟩
      · exact Or.inl ⟨h2, h1⟩
  · intro i
    rw [hbits, h.diag]
    rfl
  · by_cases ht : bit_at g.adjacency_matrix row col = true
    · have hne : row ≠ col := by
        intro he
        subst he
        rw [h.diag] at ht
        exact Bool.noConfusion ht
      have hnum : (install_edge g row col).num_edges = (g.num_edges + 1) % 2 ^ 64 := by
        unfold install_edge
        rw [test_bit_eq_bit_at, if_pos ht]
        rfl
      have hcard : (zero_pairs (install_edge g row col).adjacency_matrix N).card
          = (zero_pairs g.adjacency_matrix N).card + 1 := by
        rcases Nat.lt_or_gt_of_ne hne with hlt | hgt
        · apply zero_pairs_insert hlt hc ht
          intro a b hab
          rw [hbits]
          have : ¬ (a = col ∧ b = row) := by omega
          simp [this]
        · apply zero_pairs_insert hgt hr (by rw [h.symm]; exact ht)
          intro a b hab
          rw [hbits]
          have : ¬ (a = row ∧ b = col) := by omega
          simp [this]
      rw [hnum, hcard, h.count]
      omega
    · have : install_edge g row col = g := by
        unfold install_edge
        rw [test_bit_eq_bit_at, if_neg ht]
      rw [this]
      exact h.count

theorem process_line_graph (st : IngestState) (line : List Char) :
    (process_line st line).graph =
      match parse_record line with
      | none => st.graph
      | some (r, c) =>
        if decr64 r < st.graph.num_vertices ∧ decr64 c < st.graph.num_vertices then
          install_edge st.graph (decr64 r) (decr64 c)
        else st.graph := by
  unfold process_line
  split
  · rfl
  · split <;> rfl

theorem process_line_inv {N : Nat} (hN : N + 63 < 2 ^ 64) {st : IngestState}
    (h : GraphInv N st.graph) (line : List Char) : GraphInv N (process_line st line).graph := by
  rw [process_line_graph]
  split
  · exact h
  · split
    · next hb =>
      rw [h.nv] at hb
      exact install_edge_inv hN h hb.1 hb.2
    · exact h

theorem process_line_bits {N : Nat} (hN : N + 63 < 2 ^ 64) {st : IngestState}
    (h : GraphInv N st.graph) (line : List Char) (a b : Nat) :
    bit_at (process_line st line).graph.adjacency_matrix a b = false ↔
      (bit_at st.graph.adjacency_matrix a b = false ∨ hits N line a b) := by
  rw [process_line_graph]
  unfold hits
  cases hp : parse_record line with
  | none => simp
  | some rc =>
    obtain ⟨r, c⟩ := rc
    simp only [h.nv]
    by_cases hb : decr64 r < N ∧ decr64 c < N
    · rw [if_pos hb, install_edge_bits hN h hb.1 hb.2]
      constructor
      · intro hx
        by_cases hm : (a = decr64 r ∧ b = decr64 c) ∨ (a = decr64 c ∧ b = decr64 r)
        · exact Or.inr ⟨r, c, rfl, hb.1, hb.2, hm⟩
        · left
          simpa [hm] using hx
      · rintro (h1 | ⟨r', c', heq, _, _, hm⟩)
        · rw [h1]
          rfl
        · simp only [Option.some.injEq, Prod.mk.injEq] at heq
          obtain ⟨rfl, rfl⟩ := heq
          simp [hm]
    · rw [if_neg hb]
      constructor
      · exact Or.inl
      · rintro (h1 | ⟨r', c', heq, h2, h3, _⟩)
        · exact h1
        · simp only [Option.some.injEq, Prod.mk.injEq] at heq
          obtain ⟨rfl, rfl⟩ := heq
          exact absurd ⟨h2, h3⟩ hb

theorem ingest_inv {N : Nat} (hN : N + 63 < 2 ^ 64) (lines : List (List Char))
    {st : IngestState} (h : GraphInv N st.graph) : GraphInv N (ingest st lines).graph := by
  unfold ingest
  induction lines generalizing st with
  | nil => exact h
  | cons l ls ih => exact ih (process_line_inv hN h l)

theorem ingest_bits {N : Nat} (hN : N + 63 < 2 ^ 64) (lines : List (List Char))
    {st : IngestState} (h : GraphInv N st.graph) (a b : Nat) :
    bit_at (ingest st lines).graph.adjacency_matrix a b = false ↔
      (bit_at st.graph.adjacency_matrix a b = false ∨ ∃ l ∈ lines, hits N l a b) := by
  unfold ingest
  induction lines generalizing st with
  | nil => simp
  | cons l ls ih =>
    rw [List.foldl_cons, ih (process_line_inv hN h l), process_line_bits hN h]
    simp only [List.mem_cons, exists_eq_or_imp]
    tauto


/-! ## The run as a whole -/

theorem vertex_count_eq_max (rows cols : Nat) : vertex_count rows cols = max rows cols := by
  unfold vertex_count
  split <;> omega

theorem zero_pairs_initial {N : Nat} (hN : N + 63 < 2 ^ 64) :
    zero_pairs (initial_graph N).adjacency_matrix N = ∅ := by
  rw [Finset.eq_empty_iff_forall_not_mem]
  rintro ⟨a, b⟩ hmem
  rw [mem_zero_pairs, ← test_bit_eq_bit_at, test_bit_initial_graph hN] at hmem
  obtain ⟨h1, h2, h3⟩ := hmem
  have : a < N ∧ b < N ∧ a ≠ b := ⟨by omega, h2, by omega⟩
  simp [this] at h3

theorem initial_graph_inv {N : Nat} (hN : N + 63 < 2 ^ 64) : GraphInv N (initial_graph N) := by
  refine ⟨rfl, initial_graph_shape N, ?_, ?_, ?_, ?_⟩
  · intro i j h
    rw [← test_bit_eq_bit_at, test_bit_initial_graph hN] at h
    have := of_decide_eq_true h
    exact ⟨this.1, this.2.1⟩
  · intro i j
    rw [← test_bit_eq_bit_at, ← test_bit_eq_bit_at, test_bit_initial_graph hN,
      test_bit_initial_graph hN]
    apply decide_eq_decide.mpr
    constructor
    · rintro ⟨h1, h2, h3⟩
      exact ⟨h2, h1, fun h => h3 h.symm⟩
    · rintro ⟨h1, h2, h3⟩
      exact ⟨h2, h1, fun h => h3 h.symm⟩
  · intro i
    rw [← test_bit_eq_bit_at, test_bit_initial_graph hN]
    simp
  · rw [zero_pairs_initial hN]
    rfl

/-- The state in which the edge loop starts. -/
theorem start_inv {N : Nat} (hN : N ≤ vector_max_size) :
    GraphInv N
      (IngestState.mk (initial_graph N) 0 []).graph :=
  initial_graph_inv (by have := vector_max_size_lt; omega)

theorem read_mtx_file_eq (s : List Char) :
    read_mtx_file (some s) =
      match scan_header (read_lines MAX_LINE_LENGTH s) with
      | none => Except.error BuildError.BadHeader
      | some ((rows, cols, num_entries), rest) =>
        if vector_max_size < vertex_count rows cols then Except.error BuildError.AllocFailed
        else
          Except.ok
            { graph := (ingest ⟨initial_graph (vertex_count rows cols), 0, []⟩ rest).graph
              edges_read := (ingest ⟨initial_graph (vertex_count rows cols), 0, []⟩ rest).edges_read
              num_entries := num_entries
              chunks_per_row := chunks_per_row (vertex_count rows cols)
              warnings := (ingest ⟨initial_graph (vertex_count rows cols), 0, []⟩ rest).warnings } := by
  rfl

/-- A successful run, taken apart: the header, the allocation bound, and the result of the
edge loop. -/
theorem read_mtx_file_ok {s : List Char} {out : Output}
    (h : read_mtx_file (some s) = Except.ok out) :
    ∃ rows cols entries,
      read_header s = some (rows, cols, entries) ∧
      max rows cols ≤ vector_max_size ∧
      out.graph = (ingest ⟨initial_graph (max rows cols), 0, []⟩ (edge_lines s)).graph ∧
      out.edges_read = (ingest ⟨initial_graph (max rows cols), 0, []⟩ (edge_lines s)).edges_read ∧
      out.num_entries = entries ∧
      out.chunks_per_row = chunks_per_row (max rows cols) ∧
      out.warnings = (ingest ⟨initial_graph (max rows cols), 0, []⟩ (edge_lines s)).warnings := by
  rw [read_mtx_file_eq] at h
  unfold read_header edge_lines
  cases hs : scan_header (read_lines MAX_LINE_LENGTH s) with
  | none =>
    rw [hs] at h
    exact Except.noConfusion h
  | some p =>
    obtain ⟨⟨rows, cols, entries⟩, rest⟩ := p
    rw [hs] at h
    simp only at h
    by_cases ha : vector_max_size < vertex_count rows cols
    · rw [if_pos ha] at h
      exact Except.noConfusion h
    · rw [if_neg ha] at h
      injection h with h
      subst h
      rw [vertex_count_eq_max] at ha ⊢
      exact ⟨rows, cols, entries, rfl, by omega, rfl, rfl, rfl, rfl, rfl⟩

theorem state_after_some {s : List Char} {k : Nat} {st : IngestState}
    (h : state_after s k = some st) :
    ∃ rows cols entries,
      read_header s = some (rows, cols, entries) ∧
      max rows cols ≤ vector_max_size ∧
      st = ingest ⟨initial_graph (max rows cols), 0, []⟩ ((edge_lines s).take k) := by
  unfold state_after at h
  unfold read_header edge_lines
  cases hs : scan_header (read_lines MAX_LINE_LENGTH s) with
  | none =>
    rw [hs] at h
    exact Option.noConfusion h
  | some p =>
    obtain ⟨⟨rows, cols, entries⟩, rest⟩ := p
    rw [hs] at h
    simp only at h
    by_cases ha : vector_max_size < vertex_count rows cols
    · rw [if_pos ha] at h
      exact Option.noConfusion h
    · rw [if_neg ha] at h
      injection h with h
      subst h
      rw [vertex_count_eq_max] at ha ⊢
      exact ⟨rows, cols, entries, rfl, by omega, rfl⟩

/-! ## Values read by sscanf fit in 64 bits -/

theorem strtoul_value_lt (v : Nat) (neg : Prop) [Decidable neg] :
    (if UINT64_RANGE ≤ v then UINT64_RANGE - 1
     else if neg then (UINT64_RANGE - v) % UINT64_RANGE else v) < 2 ^ 64 := by
  unfold UINT64_RANGE
  split
  · decide
  · split
    · exact Nat.mod_lt _ (by decide)
    · omega

theorem conv_lu_lt {s : List Char} {v : Nat} {rest : List Char}
    (h : conv_lu s = ScanStep.converted v rest) : v < 2 ^ 64 := by
  unfold conv_lu at h
  cases hd : s.dropWhile isspace with
  | nil =>
    rw [hd] at h
    exact ScanStep.noConfusion h
  | cons c t =>
    rw [hd] at h
    simp only at h
    generalize (if c = '-' ∨ c = '+' then t else c :: t) = body at h
    by_cases hds : body.takeWhile isdigit = []
    · rw [if_pos hds] at h
      exact ScanStep.noConfusion h
    · rw [if_neg hds] at h
      injection h with hv _
      rw [← hv]
      exact strtoul_value_lt _ _

theorem sscanf_vals_lt (n : Nat) (s : List Char) : ∀ v ∈ sscanf_vals n s, v < 2 ^ 64 := by
  induction n generalizing s with
  | zero => intro v hv; simp [sscanf_vals] at hv
  | succ n ih =>
    intro v hv
    unfold sscanf_vals at hv
    split at hv
    · next w rest hc =>
      rcases List.mem_cons.mp hv with rfl | hmem
      · exact conv_lu_lt hc
      · exact ih rest v hmem
    · simp at hv

theorem getD_lt_of_all_lt (l : List Nat) (k : Nat) (h : ∀ v ∈ l, v < 2 ^ 64) :
    l.getD k 0 < 2 ^ 64 := by
  rw [List.getD_eq_getElem?_getD]
  by_cases hk : k < l.length
  · rw [List.getElem?_eq_getElem hk]
    exact h _ (List.getElem_mem hk)
  · rw [List.getElem?_eq_none (by omega)]
    decide

theorem parse_record_lt {line : List Char} {r c : Nat} (h : parse_record line = some (r, c)) :
    r < 2 ^ 64 ∧ c < 2 ^ 64 := by
  unfold parse_record at h
  split at h
  · exact Option.noConfusion h
  · split at h
    · injection h with h
      injection h with h1 h2
      subst h1 h2
      unfold sscanf_lu
      exact ⟨getD_lt_of_all_lt _ _ (sscanf_vals_lt _ _), getD_lt_of_all_lt _ _ (sscanf_vals_lt _ _)⟩
    · exact Option.noConfusion h

theorem decr64_lt_iff {r N : Nat} (hr : r < 2 ^ 64) (hN : N < 2 ^ 64) :
    decr64 r < N ↔ 1 ≤ r ∧ r ≤ N := by
  unfold decr64 UINT64_RANGE
  omega

theorem decr64_of_pos {r : Nat} (hr : r < 2 ^ 64) (h1 : 1 ≤ r) : decr64 r = r - 1 := by
  unfold decr64 UINT64_RANGE
  omega

/-- On a graph small enough to be allocated, a buffer hits the pair `{a, b}` exactly when it
holds a record `(r, c)` with `1 ≤ r, c ≤ N` and `{r - 1, c - 1} = {a, b}`. -/
theorem hits_iff {N : Nat} (hN : N < 2 ^ 64) (line : List Char) (a b : Nat) :
    hits N line a b ↔
      ∃ r c, parse_record line = some (r, c) ∧ 1 ≤ r ∧ r ≤ N ∧ 1 ≤ c ∧ c ≤ N ∧
        ((r - 1 = a ∧ c - 1 = b) ∨ (r - 1 = b ∧ c - 1 = a)) := by
  unfold hits
  constructor
  · rintro ⟨r, c, hp, h1, h2, h3⟩
    obtain ⟨hr, hc⟩ := parse_record_lt hp
    rw [decr64_lt_iff hr hN] at h1
    rw [decr64_lt_iff hc hN] at h2
    rw [decr64_of_pos hr h1.1, decr64_of_pos hc h2.1] at h3
    refine ⟨r, c, hp, h1.1, h1.2, h2.1, h2.2, ?_⟩
    omega
  · rintro ⟨r, c, hp, h1, h2, h3, h4, h5⟩
    obtain ⟨hr, hc⟩ := parse_record_lt hp
    refine ⟨r, c, hp, (decr64_lt_iff hr hN).mpr ⟨h1, h2⟩, (decr64_lt_iff hc hN).mpr ⟨h3, h4⟩, ?_⟩
    rw [decr64_of_pos hr h1, decr64_of_pos hc h3]
    omega


/-! ## Counting: unique edges against lines read -/

theorem install_edge_card_le {N : Nat} (hN : N + 63 < 2 ^ 64) {g : Graph} (h : GraphInv N g)
    {row col : Nat} (hr : row < N) (hc : col < N) :
    (zero_pairs (install_edge g row col).adjacency_matrix N).card
      ≤ (zero_pairs g.adjacency_matrix N).card + 1 := by
  have hbits := install_edge_bits hN h hr hc
  by_cases ht : bit_at g.adjacency_matrix row col = true
  · have hne : row ≠ col := by
      intro he
      subst he
      rw [h.diag] at ht
      exact Bool.noConfusion ht
    apply le_of_eq
    rcases Nat.lt_or_gt_of_ne hne with hlt | hgt
    · apply zero_pairs_insert hlt hc ht
      intro a b hab
      rw [hbits]
      have : ¬ (a = col ∧ b = row) := by omega
      simp [this]
    · apply zero_pairs_insert hgt hr (by rw [h.symm]; exact ht)
      intro a b hab
      rw [hbits]
      have : ¬ (a = row ∧ b = col) := by omega
      simp [this]
  · have : install_edge g row col = g := by
      unfold install_edge
      rw [test_bit_eq_bit_at, if_neg ht]
    rw [this]
    exact Nat.le_add_right _ 1

theorem process_line_card_le {N : Nat} (hN : N + 63 < 2 ^ 64) {st : IngestState}
    (h : GraphInv N st.graph) (line : List Char) :
    (zero_pairs (process_line st line).graph.adjacency_matrix N).card
      ≤ (zero_pairs st.graph.adjacency_matrix N).card + 1 := by
  rw [process_line_graph]
  cases hp : parse_record line with
  | none => exact Nat.le_add_right _ 1
  | some rc =>
    obtain ⟨r, c⟩ := rc
    simp only
    by_cases hb : decr64 r < st.graph.num_vertices ∧ decr64 c < st.graph.num_vertices
    · rw [if_pos hb]
      rw [h.nv] at hb
      exact install_edge_card_le hN h hb.1 hb.2
    · rw [if_neg hb]
      exact Nat.le_add_right _ 1

theorem ingest_card_le {N : Nat} (hN : N + 63 < 2 ^ 64) (lines : List (List Char))
    {st : IngestState} (h : GraphInv N st.graph) :
    (zero_pairs (ingest st lines).graph.adjacency_matrix N).card
      ≤ (zero_pairs st.graph.adjacency_matrix N).card + lines.length := by
  unfold ingest
  induction lines generalizing st with
  | nil => exact Nat.le_add_right _ _
  | cons l ls ih =>
    rw [List.foldl_cons, List.length_cons]
    have h1 := ih (process_line_inv hN h l)
    have h2 := process_line_card_le hN h l
    calc _ ≤ _ := h1
      _ ≤ (zero_pairs st.graph.adjacency_matrix N).card + 1 + ls.length :=
          Nat.add_le_add_right h2 _
      _ = _ := by rw [Nat.add_assoc, Nat.add_comm 1]

theorem read_lines_fuel_length (size fuel : Nat) (s : List Char) :
    (read_lines_fuel size fuel s).length ≤ fuel := by
  induction fuel generalizing s with
  | zero => simp [read_lines_fuel]
  | succ n ih =>
    unfold read_lines_fuel
    split
    · simp
    · rw [List.length_cons]
      next line rest _ =>
      have := ih rest
      omega

theorem scan_header_length {lines rest : List (List Char)} {d : Nat × Nat × Nat}
    (h : scan_header lines = some (d, rest)) : rest.length ≤ lines.length := by
  induction lines with
  | nil => simp [scan_header] at h
  | cons l ls ih =>
    unfold scan_header at h
    split at h
    · have := ih h
      rw [List.length_cons]
      omega
    · split at h
      · injection h with h
        injection h with _ h2
        subst h2
        simp
      · have := ih h
        rw [List.length_cons]
        omega

theorem edge_lines_length (s : List Char) : (edge_lines s).length ≤ s.length := by
  unfold edge_lines
  split
  · simp
  · next d rest hs =>
    have h1 := scan_header_length hs
    have h2 := read_lines_fuel_length MAX_LINE_LENGTH s.length s
    unfold read_lines at h1
    omega


/-! ## Evaluation of the scenarios of the spec -/

theorem read_empty_file :
    read_mtx_file (some empty_file)
      = Except.ok empty_out := by rfl

theorem read_triangle_file :
    read_mtx_file (some triangle_file)
      = Except.ok triangle_out := by rfl

theorem read_duplicate_file :
    read_mtx_file (some duplicate_file)
      = Except.ok duplicate_out := by rfl

theorem read_nonsquare_file :
    read_mtx_file (some nonsquare_file)
      = Except.ok nonsquare_out := by rfl

/-! ## Invariants of every state of the edge loop -/

theorem ingest_from_start_inv {N : Nat} (hN : N ≤ vector_max_size) (lines : List (List Char)) :
    GraphInv N (ingest ⟨initial_graph N, 0, []⟩ lines).graph :=
  ingest_inv (by have := vector_max_size_lt; omega) lines (start_inv hN)

theorem GraphInv.symmetric {N : Nat} {g : Graph} (h : GraphInv N g) : SymmetricBits N g :=
  fun i j _ _ => h.symm i j

theorem GraphInv.zeroDiagonal {N : Nat} {g : Graph} (h : GraphInv N g) : ZeroDiagonal N g :=
  fun i _ => h.diag i

theorem padded_of_range {N : Nat} {g : Graph}
    (hrange : ∀ i j, bit_at g.adjacency_matrix i j = true → i < N ∧ j < N) : Padded N g := by
  intro row hrow w b hb hge
  obtain ⟨i, hi, rfl⟩ := List.getElem_of_mem hrow
  have hget : g.adjacency_matrix.getD i [] = g.adjacency_matrix[i] := by
    rw [List.getD_eq_getElem?_getD, List.getElem?_eq_getElem hi]; rfl
  have hbit : bit_at g.adjacency_matrix i (64 * w + b) = (g.adjacency_matrix[i].getD w 0).testBit b := by
    unfold bit_at
    rw [hget]
    have h1 : (64 * w + b) / 64 = w := by omega
    have h2 : (64 * w + b) % 64 = b := by omega
    rw [h1, h2]
  cases hv : (g.adjacency_matrix[i].getD w 0).testBit b
  · rfl
  · rw [hv] at hbit
    have := (hrange _ _ hbit).2
    omega

theorem GraphInv.padded {N : Nat} {g : Graph} (h : GraphInv N g) : Padded N g :=
  padded_of_range h.range

/-- The matrix as the allocation loop leaves it, before the diagonal loop, is padded. -/
theorem allocated_padded {N : Nat} (hN : N ≤ vector_max_size) : Padded N (allocated_graph N) := by
  apply padded_of_range
  intro i j h
  have hN64 : N + 63 < 2 ^ 64 := by have := vector_max_size_lt; omega
  unfold allocated_graph at h
  rw [← test_bit_eq_bit_at, test_bit_init_matrix hN64] at h
  exact of_decide_eq_true h

theorem header_eq_of_ok {s : List Char} {out : Output} {rows cols entries : Nat}
    (hdr : read_header s = some (rows, cols, entries))
    (h : read_mtx_file (some s) = Except.ok out) :
    max rows cols ≤ vector_max_size ∧
      out.graph = (ingest ⟨initial_graph (max rows cols), 0, []⟩ (edge_lines s)).graph ∧
      out.chunks_per_row = chunks_per_row (max rows cols) := by
  obtain ⟨rows', cols', entries', hdr', hN, hg, _, _, hc, _⟩ := read_mtx_file_ok h
  rw [hdr] at hdr'
  injection hdr' with hdr'
  injection hdr' with h1 hdr'
  injection hdr' with h2 h3
  subst h1 h2 h3
  exact ⟨hN, hg, hc⟩

/-- The invariant holds in the returned graph. -/
theorem read_mtx_file_inv {s : List Char} {out : Output} {rows cols entries : Nat}
    (hdr : read_header s = some (rows, cols, entries))
    (h : read_mtx_file (some s) = Except.ok out) :
    GraphInv (max rows cols) out.graph := by
  obtain ⟨hN, hg, _⟩ := header_eq_of_ok hdr h
  rw [hg]
  exact ingest_from_start_inv hN (edge_lines s)

/-- The invariant holds after any number of iterations of the edge loop. -/
theorem state_after_inv {s : List Char} {k : Nat} {st : IngestState} {rows cols entries : Nat}
    (hdr : read_header s = some (rows, cols, entries))
    (h : state_after s k = some st) :
    GraphInv (max rows cols) st.graph := by
  obtain ⟨rows', cols', entries', hdr', hN, hst⟩ := state_after_some h
  rw [hdr] at hdr'
  injection hdr' with hdr'
  injection hdr' with h1 hdr'
  injection hdr' with h2 h3
  subst h1 h2 h3
  rw [hst]
  exact ingest_from_start_inv hN ((edge_lines s).take k)

/-! ## The claims -/

/-- C1. For an input with a valid dimension line `rows cols entries` and `N = max rows cols`,
and for `i, j < N`, bit `(i, j)` of the returned graph is 0 if and only if `i = j` or some
line read after the dimension line parses as a record `(r, c)` with `1 ≤ r, c ≤ N` and
`{r - 1, c - 1} = {i, j}`; otherwise the bit is 1. -/
theorem bit_zero_iff_diagonal_or_record (s : List Char) (out : Output) (rows cols entries : Nat)
    (hdr : read_header s = some (rows, cols, entries))
    (h : read_mtx_file (some s) = Except.ok out)
    (i j : Nat) (hi : i < max rows cols) (hj : j < max rows cols) :
    (out.graph.bit i j = false ↔ (i = j ∨ has_record s (max rows cols) i j)) ∧
      (out.graph.bit i j = true ↔ ¬ (i = j ∨ has_record s (max rows cols) i j)) := by
  obtain ⟨rows', cols', entries', hdr', hN, hg, _⟩ := read_mtx_file_ok h
  rw [hdr] at hdr'
  injection hdr' with hdr'
  injection hdr' with h1 hdr'
  injection hdr' with h2 h3
  subst h1 h2 h3
  have hN64 : max rows cols + 63 < 2 ^ 64 := by have := vector_max_size_lt; omega
  have hbits := ingest_bits hN64 (edge_lines s) (start_inv hN) i j
  have hinit : bit_at (initial_graph (max rows cols)).adjacency_matrix i j = false ↔ i = j := by
    rw [← test_bit_eq_bit_at, test_bit_initial_graph hN64]
    simp [hi, hj]
  have key : out.graph.bit i j = false ↔ (i = j ∨ has_record s (max rows cols) i j) := by
    unfold Graph.bit has_record
    rw [hg, hbits, hinit]
    apply or_congr Iff.rfl
    constructor
    · rintro ⟨l, hl, hh⟩
      exact ⟨l, hl, (hits_iff (by omega) l i j).mp hh⟩
    · rintro ⟨l, hl, hh⟩
      exact ⟨l, hl, (hits_iff (by omega) l i j).mpr hh⟩
  refine ⟨key, ?_⟩
  rw [← key]
  cases out.graph.bit i j <;> simp

/-- C2. For every accepted input (shorter than 2^64 bytes, so that the 64-bit counter cannot
wrap), `num_edges` of the returned graph equals the number of unordered pairs `{i, j}`,
`i < j < N`, whose bit `(i, j)` is 0 in the returned matrix. -/
theorem num_edges_eq_zero_pairs (s : List Char) (out : Output)
    (h : read_mtx_file (some s) = Except.ok out) (hlen : s.length < 2 ^ 64) :
    out.graph.num_edges = (zero_pairs out.graph.adjacency_matrix out.graph.num_vertices).card := by
  obtain ⟨rows, cols, entries, hdr, hN, hg, _⟩ := read_mtx_file_ok h
  have hN64 : max rows cols + 63 < 2 ^ 64 := by have := vector_max_size_lt; omega
  have hinv := read_mtx_file_inv hdr h
  have hnv : out.graph.num_vertices = max rows cols := hinv.nv
  have hle := ingest_card_le hN64 (edge_lines s) (start_inv hN)
  rw [← hg] at hle
  simp only at hle
  rw [zero_pairs_initial hN64, Finset.card_empty, Nat.zero_add, ← hnv] at hle
  have hlines := edge_lines_length s
  have hcount := hinv.count
  rw [← hnv] at hcount
  generalize (zero_pairs out.graph.adjacency_matrix out.graph.num_vertices).card = n at hle hcount ⊢
  rw [hcount]
  exact Nat.mod_eq_of_lt (by omega)

/-- C3. Symmetry is an invariant of the build: for a dimension line `rows cols entries` and
`N = max rows cols`, after the pre-fill and after every processed edge line (`k` lines
processed, for any `k`), and in the returned graph, bit `(i, j)` equals bit `(j, i)` for all
`i, j < N`. -/
theorem symmetry_invariant (s : List Char) (rows cols entries : Nat) (k : Nat)
    (st : IngestState) (out : Output)
    (hdr : read_header s = some (rows, cols, entries))
    (hk : state_after s k = some st) (h : read_mtx_file (some s) = Except.ok out) :
    SymmetricBits (max rows cols) st.graph ∧ SymmetricBits (max rows cols) out.graph :=
  ⟨(state_after_inv hdr hk).symmetric, (read_mtx_file_inv hdr h).symmetric⟩

/-- C4. Padding is an invariant of the build: for a dimension line `rows cols entries` and
`N = max rows cols`, after the allocation loop, after the diagonal loop and after every
processed edge line (`k` lines processed, for any `k`; whatever the lines hold, pieces of
overlong lines included), and in the returned graph, every bit of every row whose logical
column index is `N` or more is 0. -/
theorem padding_invariant (s : List Char) (rows cols entries : Nat) (k : Nat)
    (st : IngestState) (out : Output)
    (hdr : read_header s = some (rows, cols, entries))
    (hk : state_after s k = some st) (h : read_mtx_file (some s) = Except.ok out) :
    Padded (max rows cols) (allocated_graph (max rows cols)) ∧
      Padded (max rows cols) st.graph ∧ Padded (max rows cols) out.graph :=
  ⟨allocated_padded (header_eq_of_ok hdr h).1, (state_after_inv hdr hk).padded,
    (read_mtx_file_inv hdr h).padded⟩

/-- C5. For every accepted input with dimension line `rows cols entries`, `N = max rows cols`
and every `i < N`, bit `(i, i)` of the returned graph is 0, and it is 0 after the pre-fill
and after every processed edge line: no record sets a diagonal bit back to 1. -/
theorem diagonal_invariant (s : List Char) (rows cols entries : Nat) (k : Nat)
    (st : IngestState) (out : Output)
    (hdr : read_header s = some (rows, cols, entries))
    (hk : state_after s k = some st) (h : read_mtx_file (some s) = Except.ok out) :
    ZeroDiagonal (max rows cols) out.graph ∧ ZeroDiagonal (max rows cols) st.graph :=
  ⟨(read_mtx_file_inv hdr h).zeroDiagonal, (state_after_inv hdr hk).zeroDiagonal⟩

theorem read_overlong_file :
    read_mtx_file (some overlong_file)
      = Except.ok overlong_out := by rfl

theorem read_two_edge_file :
    read_mtx_file (some two_edge_file)
      = Except.ok two_edge_out := by rfl

theorem read_three_edge_file :
    read_mtx_file (some three_edge_file)
      = Except.ok ⟨⟨3, 3, [[0], [0], [0]]⟩, 3, 2, 1, []⟩ := by rfl


/-! ## Two matrices with the same bits are the same storage -/

theorem word_eq_of_bits {w w' : Nat} (hw : w < 2 ^ 64) (hw' : w' < 2 ^ 64)
    (h : ∀ k, k < 64 → w.testBit k = w'.testBit k) : w = w' := by
  apply Nat.eq_of_testBit_eq
  intro k
  by_cases hk : k < 64
  · exact h k hk
  · rw [testBit_false_of_lt_word hw (by omega), testBit_false_of_lt_word hw' (by omega)]

theorem shape_ext {N C : Nat} {m m' : List (List Nat)} (h : Shape N C m) (h' : Shape N C m')
    (hb : ∀ i j, bit_at m i j = bit_at m' i j) : m = m' := by
  apply List.ext_getElem (by rw [h.1, h'.1])
  intro i hi hi'
  have hr := h.2 _ (List.getElem_mem hi)
  have hr' := h'.2 _ (List.getElem_mem hi')
  apply List.ext_getElem (by rw [hr.1, hr'.1])
  intro c hc hc'
  apply word_eq_of_bits (hr.2 _ (List.getElem_mem hc)) (hr'.2 _ (List.getElem_mem hc'))
  intro k hk
  have hbit := hb i (64 * c + k)
  unfold bit_at at hbit
  have h1 : (64 * c + k) / 64 = c := by omega
  have h2 : (64 * c + k) % 64 = k := by omega
  rw [h1, h2] at hbit
  simp only [List.getD_eq_getElem?_getD, List.getElem?_eq_getElem hi,
    List.getElem?_eq_getElem hi', Option.getD_some, List.getElem?_eq_getElem hc,
    List.getElem?_eq_getElem hc'] at hbit
  exact hbit

theorem graph_ext_of_inv {N : Nat} {g g' : Graph} (h : GraphInv N g) (h' : GraphInv N g')
    (hb : ∀ i j, bit_at g.adjacency_matrix i j = bit_at g'.adjacency_matrix i j) : g = g' := by
  have hm : g.adjacency_matrix = g'.adjacency_matrix := shape_ext h.shape h'.shape hb
  have hn : g.num_edges = g'.num_edges := by rw [h.count, h'.count, hm]
  have hv : g.num_vertices = g'.num_vertices := by rw [h.nv, h'.nv]
  cases g
  cases g'
  simp only at hm hn hv
  subst hm hn hv
  rfl

theorem bool_eq_of_false_iff {x y : Bool} (h : x = false ↔ y = false) : x = y := by
  cases x <;> cases y <;> simp at h ⊢

/-- The graph built by the edge loop depends only on which vertex pairs the lines hit. -/
theorem ingest_graph_congr {N : Nat} (hN : N ≤ vector_max_size) (E E' : List (List Char))
    (h : ∀ a b, (∃ l ∈ E, hits N l a b) ↔ (∃ l ∈ E', hits N l a b)) :
    (ingest ⟨initial_graph N, 0, []⟩ E).graph = (ingest ⟨initial_graph N, 0, []⟩ E').graph := by
  have hN64 : N + 63 < 2 ^ 64 := by have := vector_max_size_lt; omega
  apply graph_ext_of_inv (ingest_from_start_inv hN E) (ingest_from_start_inv hN E')
  intro i j
  apply bool_eq_of_false_iff
  rw [ingest_bits hN64 E (start_inv hN), ingest_bits hN64 E' (start_inv hN), h i j]

theorem hits_swap {N : Nat} {l l' : List Char} {r c : Nat} (hl' : parse_record l' = some (r, c))
    (hl : parse_record l = some (r, c) ∨ parse_record l = some (c, r)) {a b : Nat}
    (h : hits N l' a b) : hits N l a b := by
  obtain ⟨r', c', hp, h1, h2, h3⟩ := h
  rw [hl'] at hp
  simp only [Option.some.injEq, Prod.mk.injEq] at hp
  obtain ⟨rfl, rfl⟩ := hp
  rcases hl with hl | hl
  · exact ⟨r, c, hl, h1, h2, h3⟩
  · exact ⟨c, r, hl, h2, h1, h3.symm⟩

theorem read_mtx_file_by_parts (s : List Char) :
    read_mtx_file (some s) =
      match read_header s with
      | none => Except.error BuildError.BadHeader
      | some (rows, cols, num_entries) =>
        if vector_max_size < max rows cols then Except.error BuildError.AllocFailed
        else
          Except.ok
            { graph := (ingest ⟨initial_graph (max rows cols), 0, []⟩ (edge_lines s)).graph
              edges_read := (ingest ⟨initial_graph (max rows cols), 0, []⟩ (edge_lines s)).edges_read
              num_entries := num_entries
              chunks_per_row := chunks_per_row (max rows cols)
              warnings := (ingest ⟨initial_graph (max rows cols), 0, []⟩ (edge_lines s)).warnings } := by
  rw [read_mtx_file_eq]
  unfold read_header edge_lines
  cases hs : scan_header (read_lines MAX_LINE_LENGTH s) with
  | none => rfl
  | some p =>
    obtain ⟨⟨rows, cols, entries⟩, rest⟩ := p
    simp only [Option.map_some', vertex_count_eq_max]

theorem ingest_no_records (st : IngestState) (lines : List (List Char))
    (h : ∀ l ∈ lines, parse_record l = none) : ingest st lines = st := by
  unfold ingest
  induction lines generalizing st with
  | nil => rfl
  | cons l ls ih =>
    rw [List.foldl_cons]
    have hl : process_line st l = st := by
      unfold process_line
      rw [h l (List.mem_cons_self _ _)]
    rw [hl]
    exact ih st (fun x hx => h x (List.mem_cons_of_mem _ hx))

theorem ingest_append (st : IngestState) (E X : List (List Char)) :
    ingest st (E ++ X) = ingest (ingest st E) X := by
  unfold ingest
  rw [List.foldl_append]

/-- C6. Idempotence under duplication: when `F'` has the dimension line of `F` and its edge
lines are those of `F` with further lines inserted at arbitrary positions, every record
among them being a record of `F` in either orientation, `read_mtx_file` yields the same
graph for both: identical adjacency matrices and equal `num_edges`. -/
theorem duplicates_idempotent (F F' : List Char)
    (hh : read_header F' = read_header F)
    (hsub : (edge_lines F).Sublist (edge_lines F'))
    (hdup : ∀ l' ∈ edge_lines F', ∀ r c, parse_record l' = some (r, c) →
      ∃ l ∈ edge_lines F, parse_record l = some (r, c) ∨ parse_record l = some (c, r)) :
    (read_mtx_file (some F)).map Output.graph = (read_mtx_file (some F')).map Output.graph := by
  rw [read_mtx_file_by_parts F, read_mtx_file_by_parts F', hh]
  cases hd : read_header F with
  | none => rfl
  | some d =>
    obtain ⟨rows, cols, entries⟩ := d
    simp only
    by_cases hN : vector_max_size < max rows cols
    · rw [if_pos hN, if_pos hN]
    · rw [if_neg hN, if_neg hN]
      simp only [Except.map]
      congr 1
      apply ingest_graph_congr (by omega)
      intro a b
      constructor
      · rintro ⟨l, hl, hh⟩
        exact ⟨l, hsub.subset hl, hh⟩
      · rintro ⟨l', hl', hh'⟩
        obtain ⟨r, c, hp, _⟩ := id hh'
        obtain ⟨l, hl, hor⟩ := hdup l' hl' r c hp
        exact ⟨l, hl, hits_swap hp hor hh'⟩

/-- C7. Monotonicity: when `F'` has the dimension line of `F` and its edge lines are those of
`F` followed by further lines `X` (valid records or not), and `F` is accepted, then `F'` is
accepted, `num_edges` does not decrease (for `F'` shorter than 2^64 bytes, so that the
64-bit counter cannot wrap), and every bit that is 0 for `F` is 0 for `F'`. -/
theorem appending_monotone (F F' : List Char) (X : List (List Char)) (out : Output)
    (hh : read_header F' = read_header F)
    (happ : edge_lines F' = edge_lines F ++ X)
    (h : read_mtx_file (some F) = Except.ok out)
    (hlen : F'.length < 2 ^ 64) :
    ∃ out', read_mtx_file (some F') = Except.ok out' ∧
      out.graph.num_edges ≤ out'.graph.num_edges ∧
      ∀ i j, out.graph.bit i j = false → out'.graph.bit i j = false := by
  obtain ⟨rows, cols, entries, hdr, hN, hg, _⟩ := read_mtx_file_ok h
  have hN64 : max rows cols + 63 < 2 ^ 64 := by have := vector_max_size_lt; omega
  have hread : read_mtx_file (some F') = Except.ok
      { graph := (ingest ⟨initial_graph (max rows cols), 0, []⟩ (edge_lines F')).graph
        edges_read := (ingest ⟨initial_graph (max rows cols), 0, []⟩ (edge_lines F')).edges_read
        num_entries := entries
        chunks_per_row := chunks_per_row (max rows cols)
        warnings := (ingest ⟨initial_graph (max rows cols), 0, []⟩ (edge_lines F')).warnings } := by
    rw [read_mtx_file_by_parts F', hh, hdr]
    simp only
    rw [if_neg (by omega)]
  refine ⟨_, hread, ?_⟩
  simp only
  have hinv := ingest_from_start_inv hN (edge_lines F)
  have hinv' := ingest_from_start_inv hN (edge_lines F')
  have hbits : ∀ i j, out.graph.bit i j = false →
      bit_at (ingest ⟨initial_graph (max rows cols), 0, []⟩ (edge_lines F')).graph.adjacency_matrix
        i j = false := by
    intro i j hz
    rw [happ, ingest_append, ingest_bits hN64 X hinv]
    left
    rw [← hg]
    exact hz
  refine ⟨?_, hbits⟩
  have hsubset : zero_pairs out.graph.adjacency_matrix (max rows cols) ⊆
      zero_pairs (ingest ⟨initial_graph (max rows cols), 0, []⟩ (edge_lines F')).graph.adjacency_matrix
        (max rows cols) := by
    rintro ⟨a, b⟩ hab
    rw [mem_zero_pairs] at hab ⊢
    exact ⟨hab.1, hab.2.1, hbits a b hab.2.2⟩
  have hcard := Finset.card_le_card hsubset
  have hle := ingest_card_le hN64 (edge_lines F') (start_inv hN)
  simp only at hle
  rw [zero_pairs_initial hN64, Finset.card_empty, Nat.zero_add] at hle
  have hlines := edge_lines_length F'
  have hc := hinv.count
  have hc' := hinv'.count
  rw [← hg] at hc
  rw [hc, hc']
  generalize (zero_pairs out.graph.adjacency_matrix (max rows cols)).card = n at hcard ⊢
  generalize (zero_pairs (ingest ⟨initial_graph (max rows cols), 0, []⟩
    (edge_lines F')).graph.adjacency_matrix (max rows cols)).card = n' at hcard hle ⊢
  rw [Nat.mod_eq_of_lt (by omega), Nat.mod_eq_of_lt (by omega)]
  exact hcard

/-- C8. For a file whose dimension line is `rows cols entries`, the returned graph has
`num_vertices = max rows cols`, so that every record `(r, c)` with `1 ≤ r, c ≤ max rows cols`
is in bounds and installed, also when `rows ≠ cols`: bits `(r - 1, c - 1)` and
`(c - 1, r - 1)` are 0. -/
theorem vertex_count_is_max (s : List Char) (out : Output) (rows cols entries : Nat)
    (hdr : read_header s = some (rows, cols, entries))
    (h : read_mtx_file (some s) = Except.ok out) :
    out.graph.num_vertices = max rows cols ∧
      ∀ line ∈ edge_lines s, ∀ r c, parse_record line = some (r, c) →
        1 ≤ r → r ≤ max rows cols → 1 ≤ c → c ≤ max rows cols →
        out.graph.bit (r - 1) (c - 1) = false ∧ out.graph.bit (c - 1) (r - 1) = false := by
  obtain ⟨hN, hg, _⟩ := header_eq_of_ok hdr h
  have hN64 : max rows cols + 63 < 2 ^ 64 := by have := vector_max_size_lt; omega
  have hinv := ingest_from_start_inv hN (edge_lines s)
  refine ⟨by rw [hg]; exact hinv.nv, ?_⟩
  intro line hline r c hp h1 h2 h3 h4
  unfold Graph.bit
  rw [hg, ingest_bits hN64 _ (start_inv hN), ingest_bits hN64 _ (start_inv hN)]
  constructor
  · right
    exact ⟨line, hline, (hits_iff (by omega) line _ _).mpr
      ⟨r, c, hp, h1, h2, h3, h4, Or.inl ⟨rfl, rfl⟩⟩⟩
  · right
    exact ⟨line, hline, (hits_iff (by omega) line _ _).mpr
      ⟨r, c, hp, h1, h2, h3, h4, Or.inr ⟨rfl, rfl⟩⟩⟩

/-- C9. Pre-fill pattern: for an accepted file in which no line after the dimension line
holds a record, `num_edges = 0` and, for every row `i < N` and every physical column
`j < 64 * C`, bit `(i, j)` is 1 exactly when `j < N` and `j ≠ i`; for `N = 0` the matrix is
empty. -/
theorem prefill_pattern (s : List Char) (out : Output)
    (h : read_mtx_file (some s) = Except.ok out)
    (hno : ∀ l ∈ edge_lines s, parse_record l = none) :
    out.graph.num_edges = 0 ∧
      (∀ i j, i < out.graph.num_vertices → j < 64 * out.chunks_per_row →
        (out.graph.bit i j = true ↔ (j < out.graph.num_vertices ∧ j ≠ i))) ∧
      (out.graph.num_vertices = 0 → out.graph.adjacency_matrix = []) := by
  obtain ⟨rows, cols, entries, _, hN, hg, _⟩ := read_mtx_file_ok h
  have hN64 : max rows cols + 63 < 2 ^ 64 := by have := vector_max_size_lt; omega
  rw [ingest_no_records _ _ hno] at hg
  simp only at hg
  rw [hg]
  refine ⟨rfl, ?_, ?_⟩
  · intro i j hi _
    have hi' : i < max rows cols := hi
    unfold Graph.bit
    rw [← test_bit_eq_bit_at, test_bit_initial_graph hN64]
    simp only [decide_eq_true_eq]
    constructor
    · rintro ⟨_, h2, h3⟩
      exact ⟨h2, fun e => h3 e.symm⟩
    · rintro ⟨h2, h3⟩
      exact ⟨hi', h2, fun e => h3 e.symm⟩
  · intro h0
    have h0' : max rows cols = 0 := h0
    have hs := initial_graph_shape (max rows cols)
    exact List.eq_nil_of_length_eq_zero (by rw [hs.1]; exact h0')

/-- C10 as stated fails at `N = 2^64 - 1`: the sum `N + 63` wraps, `(N + 63) >> 6` is 0 and
not the 2^58 words that `N` bits need, and the header with this `N` yields no matrix. -/
theorem chunks_per_row_wraps :
    chunks_per_row (2 ^ 64 - 1) = 0 ∧
      ¬ (2 ^ 64 - 1 ≤ 64 * chunks_per_row (2 ^ 64 - 1)) ∧
      read_header huge_file = some (2 ^ 64 - 1, 1, 0) ∧
      read_mtx_file (some huge_file) = Except.error BuildError.AllocFailed := by
  refine ⟨by decide, by decide, by rfl, by rfl⟩

/-- C10, amended. For every vertex count `N ≤ 2^64 - 64` the value `C = (N + 63) >> 6`
computed in 64-bit arithmetic is the ceiling of `N / 64` (`N ≤ 64 * C < N + 64`), and whenever
a header with `N = max rows cols` yields a graph, its matrix has exactly `N` rows of exactly
`C` words each. -/
theorem storage_dimensions (N : Nat) (hN : N ≤ 2 ^ 64 - 64) :
    (N ≤ 64 * chunks_per_row N ∧ 64 * chunks_per_row N < N + 64) ∧
      ∀ (s : List Char) (out : Output) (rows cols entries : Nat),
        read_header s = some (rows, cols, entries) → max rows cols = N →
        read_mtx_file (some s) = Except.ok out →
        out.graph.adjacency_matrix.length = N ∧
          (∀ row ∈ out.graph.adjacency_matrix, row.length = chunks_per_row N) ∧
          out.chunks_per_row = chunks_per_row N := by
  constructor
  · rw [chunks_per_row_eq (by omega)]
    omega
  · intro s out rows cols entries hdr hmax h
    obtain ⟨hNv, hg, hc⟩ := header_eq_of_ok hdr h
    have hinv := ingest_from_start_inv hNv (edge_lines s)
    rw [← hg, hmax] at hinv
    rw [hmax] at hc
    exact ⟨hinv.shape.1, fun row hrow => (hinv.shape.2 row hrow).1, hc⟩


/-! ## The claims at concrete inputs -/

theorem state_after_overlong_one : state_after overlong_file 1 = some overlong_mid := by rfl

/-- C1 on scenario 3 of the spec: bit `(1, 2)` is 1 and no record joins vertices 1 and 2. -/
theorem bit_zero_iff_diagonal_or_record_witness :
    (duplicate_out.graph.bit 1 2 = false ↔ (1 = 2 ∨ has_record duplicate_file (max 3 3) 1 2)) ∧
      (duplicate_out.graph.bit 1 2 = true ↔
        ¬ (1 = 2 ∨ has_record duplicate_file (max 3 3) 1 2)) :=
  bit_zero_iff_diagonal_or_record duplicate_file duplicate_out 3 3 4 (by rfl)
    read_duplicate_file 1 2 (by decide) (by decide)

/-- C2 on scenario 2 of the spec, the triangle. -/
theorem num_edges_eq_zero_pairs_witness :
    triangle_out.graph.num_edges
      = (zero_pairs triangle_out.graph.adjacency_matrix triangle_out.graph.num_vertices).card :=
  num_edges_eq_zero_pairs triangle_file triangle_out read_triangle_file (by decide)

/-- C3 on the input with an overlong line, after one buffer and at the end. -/
theorem symmetry_invariant_witness :
    SymmetricBits (max 3 3) overlong_mid.graph ∧ SymmetricBits (max 3 3) overlong_out.graph :=
  symmetry_invariant overlong_file 3 3 1 1 overlong_mid overlong_out (by rfl)
    state_after_overlong_one read_overlong_file

/-- C4 on the input with an overlong line: after the allocation loop, after one buffer and
at the end. -/
theorem padding_invariant_witness :
    Padded (max 3 3) (allocated_graph (max 3 3)) ∧
      Padded (max 3 3) overlong_mid.graph ∧ Padded (max 3 3) overlong_out.graph :=
  padding_invariant overlong_file 3 3 1 1 overlong_mid overlong_out (by rfl)
    state_after_overlong_one read_overlong_file

/-- C5 on the input with an overlong line, at the end and after one buffer. -/
theorem diagonal_invariant_witness :
    ZeroDiagonal (max 3 3) overlong_out.graph ∧ ZeroDiagonal (max 3 3) overlong_mid.graph :=
  diagonal_invariant overlong_file 3 3 1 1 overlong_mid overlong_out (by rfl)
    state_after_overlong_one read_overlong_file

/-- C6 on a file with two records and the same file with three duplicates inserted. -/
theorem duplicates_idempotent_witness :
    (read_mtx_file (some two_edge_file)).map Output.graph
      = (read_mtx_file (some duplicated_file)).map Output.graph :=
  duplicates_idempotent two_edge_file duplicated_file (by rfl) (by decide) (by
    intro l' hl' r c hp
    have he : edge_lines duplicated_file
        = ["2 1\n".toList, "1 2\n".toList, "1 3\n".toList, "1 2\n".toList, "3 1\n".toList] := by
      rfl
    have h12 : "1 2\n".toList ∈ edge_lines two_edge_file := by decide
    have h13 : "1 3\n".toList ∈ edge_lines two_edge_file := by decide
    have p12 : parse_record "1 2\n".toList = some (1, 2) := by rfl
    have p13 : parse_record "1 3\n".toList = some (1, 3) := by rfl
    have p21 : parse_record "2 1\n".toList = some (2, 1) := by rfl
    have p31 : parse_record "3 1\n".toList = some (3, 1) := by rfl
    rw [he] at hl'
    simp only [List.mem_cons, List.mem_singleton, List.not_mem_nil, or_false] at hl'
    rcases hl' with rfl | rfl | rfl | rfl | rfl
    · rw [p21] at hp
      simp only [Option.some.injEq, Prod.mk.injEq] at hp
      obtain ⟨rfl, rfl⟩ := hp
      exact ⟨_, h12, Or.inr p12⟩
    · rw [p12] at hp
      simp only [Option.some.injEq, Prod.mk.injEq] at hp
      obtain ⟨rfl, rfl⟩ := hp
      exact ⟨_, h12, Or.inl p12⟩
    · rw [p13] at hp
      simp only [Option.some.injEq, Prod.mk.injEq] at hp
      obtain ⟨rfl, rfl⟩ := hp
      exact ⟨_, h13, Or.inl p13⟩
    · rw [p12] at hp
      simp only [Option.some.injEq, Prod.mk.injEq] at hp
      obtain ⟨rfl, rfl⟩ := hp
      exact ⟨_, h12, Or.inl p12⟩
    · rw [p31] at hp
      simp only [Option.some.injEq, Prod.mk.injEq] at hp
      obtain ⟨rfl, rfl⟩ := hp
      exact ⟨_, h13, Or.inr p13⟩)

/-- C7 on a file with two records and the same file with a third record appended. -/
theorem appending_monotone_witness :
    ∃ out', read_mtx_file (some three_edge_file) = Except.ok out' ∧
      two_edge_out.graph.num_edges ≤ out'.graph.num_edges ∧
      ∀ i j, two_edge_out.graph.bit i j = false → out'.graph.bit i j = false :=
  appending_monotone two_edge_file three_edge_file ["2 3\n".toList] two_edge_out (by rfl)
    (by rfl) read_two_edge_file (by decide)

/-- C8 on scenario 5 of the spec: header `2 5 1` gives `N = 5`, the record `1 5` is in
bounds, `num_edges = 1` and bits `(0, 4)` and `(4, 0)` are 0. -/
theorem vertex_count_is_max_witness :
    (nonsquare_out.graph.num_vertices = max 2 5 ∧
      ∀ line ∈ edge_lines nonsquare_file, ∀ r c, parse_record line = some (r, c) →
        1 ≤ r → r ≤ max 2 5 → 1 ≤ c → c ≤ max 2 5 →
        nonsquare_out.graph.bit (r - 1) (c - 1) = false ∧
          nonsquare_out.graph.bit (c - 1) (r - 1) = false) ∧
      nonsquare_out.graph.num_vertices = 5 ∧ nonsquare_out.graph.num_edges = 1 ∧
      nonsquare_out.graph.bit 0 4 = false ∧ nonsquare_out.graph.bit 4 0 = false :=
  ⟨vertex_count_is_max nonsquare_file nonsquare_out 2 5 1 (by rfl) read_nonsquare_file,
    by decide, by decide, by decide, by decide⟩

/-- C9 on scenario 1 of the spec, the empty graph. -/
theorem prefill_pattern_witness :
    empty_out.graph.num_edges = 0 ∧
      (∀ i j, i < empty_out.graph.num_vertices → j < 64 * empty_out.chunks_per_row →
        (empty_out.graph.bit i j = true ↔ (j < empty_out.graph.num_vertices ∧ j ≠ i))) ∧
      (empty_out.graph.num_vertices = 0 → empty_out.graph.adjacency_matrix = []) :=
  prefill_pattern empty_file empty_out read_empty_file (by
    intro l hl
    have he : edge_lines empty_file = [] := by rfl
    rw [he] at hl
    exact absurd hl (List.not_mem_nil l))

/-- C10, amended, at `N = 5` on scenario 5 of the spec: five rows of one word. -/
theorem storage_dimensions_witness :
    (5 ≤ 64 * chunks_per_row 5 ∧ 64 * chunks_per_row 5 < 5 + 64) ∧
      (nonsquare_out.graph.adjacency_matrix.length = 5 ∧
        (∀ row ∈ nonsquare_out.graph.adjacency_matrix, row.length = chunks_per_row 5) ∧
        nonsquare_out.chunks_per_row = chunks_per_row 5) :=
  ⟨(storage_dimensions 5 (by decide)).1,
    (storage_dimensions 5 (by decide)).2 nonsquare_file nonsquare_out 2 5 1 (by rfl) (by rfl)
      read_nonsquare_file⟩


/-! ## The counters and the warnings of the edge loop -/

theorem install_edge_num_vertices (g : Graph) (row col : Nat) :
    (install_edge g row col).num_vertices = g.num_vertices := by
  unfold install_edge
  split <;> rfl

theorem process_line_num_vertices (st : IngestState) (line : List Char) :
    (process_line st line).graph.num_vertices = st.graph.num_vertices := by
  rw [process_line_graph]
  cases hp : parse_record line with
  | none => rfl
  | some rc =>
    obtain ⟨r, c⟩ := rc
    simp only
    by_cases hb : decr64 r < st.graph.num_vertices ∧ decr64 c < st.graph.num_vertices
    · rw [if_pos hb]
      exact install_edge_num_vertices _ _ _
    · rw [if_neg hb]

theorem ingest_num_vertices (st : IngestState) (lines : List (List Char)) :
    (ingest st lines).graph.num_vertices = st.graph.num_vertices := by
  unfold ingest
  induction lines generalizing st with
  | nil => rfl
  | cons l ls ih => rw [List.foldl_cons, ih, process_line_num_vertices]

theorem incr_decr64 {r : Nat} (hr : r < 2 ^ 64) : (decr64 r + 1) % UINT64_RANGE = r := by
  unfold decr64 UINT64_RANGE
  omega

/-- A record with a coordinate outside `1..N` fails the bounds check of the edge loop. -/
theorem valid_record_iff {N : Nat} (hN : N < 2 ^ 64) {line : List Char} {r c : Nat}
    (hp : parse_record line = some (r, c)) :
    (decr64 r < N ∧ decr64 c < N) ↔ (1 ≤ r ∧ r ≤ N ∧ 1 ≤ c ∧ c ≤ N) := by
  obtain ⟨hr, hc⟩ := parse_record_lt hp
  rw [decr64_lt_iff hr hN, decr64_lt_iff hc hN]
  tauto

theorem valid_record_of_parse {N : Nat} {line : List Char} {r c : Nat}
    (hp : parse_record line = some (r, c)) :
    valid_record N line = decide (1 ≤ r ∧ r ≤ N ∧ 1 ≤ c ∧ c ≤ N) := by
  unfold valid_record
  rw [hp]
  rfl

/-- An iteration on a buffer without a record changes nothing. -/
theorem process_line_none {st : IngestState} {line : List Char}
    (hp : parse_record line = none) : process_line st line = st := by
  unfold process_line
  rw [hp]

/-- An iteration on an in-bounds record. -/
theorem process_line_valid {st : IngestState} {line : List Char} {r c : Nat}
    (hp : parse_record line = some (r, c))
    (hb : decr64 r < st.graph.num_vertices ∧ decr64 c < st.graph.num_vertices) :
    process_line st line =
      { graph := install_edge st.graph (decr64 r) (decr64 c)
        edges_read := (st.edges_read + 1) % UINT64_RANGE
        warnings := st.warnings } := by
  unfold process_line
  rw [hp]
  simp only
  rw [if_pos hb]

/-- An iteration on an out-of-bounds record. -/
theorem process_line_out_of_bounds {st : IngestState} {line : List Char} {r c : Nat}
    (hp : parse_record line = some (r, c))
    (hb : ¬ (decr64 r < st.graph.num_vertices ∧ decr64 c < st.graph.num_vertices)) :
    process_line st line =
      { graph := st.graph
        edges_read := st.edges_read
        warnings := st.warnings ++ [(r, c)] } := by
  obtain ⟨hr, hc⟩ := parse_record_lt hp
  unfold process_line
  rw [hp]
  simp only
  rw [if_neg hb, incr_decr64 hr, incr_decr64 hc]

theorem process_line_edges_read {N : Nat} (hN : N < 2 ^ 64) {st : IngestState}
    (hnv : st.graph.num_vertices = N) (line : List Char) :
    (process_line st line).edges_read =
      if valid_record N line then (st.edges_read + 1) % 2 ^ 64 else st.edges_read := by
  cases hp : parse_record line with
  | none =>
    rw [process_line_none hp]
    unfold valid_record
    rw [hp]
    rfl
  | some rc =>
    obtain ⟨r, c⟩ := rc
    rw [valid_record_of_parse hp]
    by_cases hb : decr64 r < st.graph.num_vertices ∧ decr64 c < st.graph.num_vertices
    · rw [process_line_valid hp hb]
      rw [hnv, valid_record_iff hN hp] at hb
      simp only [hb, and_self, decide_True, if_true]
      rfl
    · rw [process_line_out_of_bounds hp hb]
      rw [hnv, valid_record_iff hN hp] at hb
      simp only [hb, decide_False, Bool.false_eq_true, if_false]

theorem ingest_edges_read {N : Nat} (hN : N < 2 ^ 64) (lines : List (List Char))
    {st : IngestState} (hnv : st.graph.num_vertices = N) :
    (ingest st lines).edges_read % 2 ^ 64
      = (st.edges_read + lines.countP (valid_record N)) % 2 ^ 64 := by
  unfold ingest
  induction lines generalizing st with
  | nil => simp
  | cons l ls ih =>
    rw [List.foldl_cons, ih (by rw [process_line_num_vertices]; exact hnv),
      process_line_edges_read hN hnv, List.countP_cons]
    generalize List.countP (valid_record N) ls = n
    by_cases hv : valid_record N l = true
    · simp only [hv, if_true]
      omega
    · simp only [hv, Bool.false_eq_true, if_false]
      omega

theorem ingest_edges_read_lt (lines : List (List Char)) {st : IngestState}
    (h : st.edges_read < 2 ^ 64) : (ingest st lines).edges_read < 2 ^ 64 := by
  unfold ingest
  induction lines generalizing st with
  | nil => exact h
  | cons l ls ih =>
    rw [List.foldl_cons]
    apply ih
    unfold process_line
    split
    · exact h
    · split
      · exact Nat.mod_lt _ (by unfold UINT64_RANGE; decide)
      · exact h

theorem scan_header_length_lt {lines rest : List (List Char)} {d : Nat × Nat × Nat}
    (h : scan_header lines = some (d, rest)) : rest.length < lines.length := by
  induction lines with
  | nil => simp [scan_header] at h
  | cons l ls ih =>
    unfold scan_header at h
    split at h
    · have := ih h
      rw [List.length_cons]
      omega
    · split at h
      · injection h with h
        injection h with _ h2
        subst h2
        simp
      · have := ih h
        rw [List.length_cons]
        omega

theorem edge_lines_length_lt {s : List Char} {d : Nat × Nat × Nat}
    (hd : read_header s = some d) : (edge_lines s).length < s.length := by
  unfold read_header at hd
  unfold edge_lines
  cases hs : scan_header (read_lines MAX_LINE_LENGTH s) with
  | none =>
    rw [hs] at hd
    exact Option.noConfusion hd
  | some p =>
    obtain ⟨d', rest⟩ := p
    simp only
    have h1 := scan_header_length_lt hs
    have h2 := read_lines_fuel_length MAX_LINE_LENGTH s.length s
    unfold read_lines at h1
    omega

/-- The counter `edges_read` after the edge loop has run over the lines `lines` from the
start, when fewer than 2^64 lines are read. -/
theorem edges_read_from_start {N : Nat} (hN : N < 2 ^ 64) (lines : List (List Char))
    (hlen : lines.length < 2 ^ 64) :
    (ingest ⟨initial_graph N, 0, []⟩ lines).edges_read = lines.countP (valid_record N) := by
  have h1 : (ingest ⟨initial_graph N, 0, []⟩ lines).edges_read % 2 ^ 64
      = (0 + lines.countP (valid_record N)) % 2 ^ 64 :=
    ingest_edges_read hN lines rfl
  have h2 : (ingest ⟨initial_graph N, 0, []⟩ lines).edges_read < 2 ^ 64 :=
    ingest_edges_read_lt lines (show (0 : Nat) < 2 ^ 64 by decide)
  have h3 := List.countP_le_length (valid_record N) (l := lines)
  simp only [Nat.zero_add] at h1
  generalize List.countP (valid_record N) lines = n at h1 h3
  generalize (ingest ⟨initial_graph N, 0, []⟩ lines).edges_read = e at h1 h2
  omega

theorem state_after_of_header {s : List Char} {k : Nat} {st : IngestState}
    {rows cols entries : Nat} (hdr : read_header s = some (rows, cols, entries))
    (h : state_after s k = some st) :
    max rows cols ≤ vector_max_size ∧
      st = ingest ⟨initial_graph (max rows cols), 0, []⟩ ((edge_lines s).take k) := by
  obtain ⟨rows', cols', entries', hdr', hN, hst⟩ := state_after_some h
  rw [hdr] at hdr'
  injection hdr' with hdr'
  injection hdr' with h1 hdr'
  injection hdr' with h2 h3
  subst h1 h2 h3
  exact ⟨hN, hst⟩

theorem install_edge_self {N : Nat} {g : Graph} (h : GraphInv N g) (row : Nat) :
    install_edge g row row = g := by
  unfold install_edge
  rw [test_bit_eq_bit_at, h.diag]
  rfl

theorem read_oob_file : read_mtx_file (some oob_file) = Except.ok oob_out := by rfl

theorem state_after_oob_one : state_after oob_file 1 = some oob_mid := by rfl

/-- C11. Out-of-bounds records are skipped without aborting: in every graph state (with a
64-bit vertex count `N`), a buffer that parses as a record `(r, c)` whose coordinates do not
both lie in `1..N` (a coordinate 0 wraps to 2^64 - 1 on the decrement) leaves the graph,
hence the matrix and `num_edges`, and `edges_read` unchanged, adds exactly one warning,
which names `(r, c)`, and the buffers that follow are processed from that state. -/
theorem out_of_bounds_skipped (st : IngestState) (line : List Char) (r c : Nat)
    (rest : List (List Char))
    (hN : st.graph.num_vertices < 2 ^ 64)
    (hp : parse_record line = some (r, c))
    (hout : ¬ (1 ≤ r ∧ r ≤ st.graph.num_vertices ∧ 1 ≤ c ∧ c ≤ st.graph.num_vertices)) :
    (process_line st line).graph = st.graph ∧
      (process_line st line).edges_read = st.edges_read ∧
      (process_line st line).warnings = st.warnings ++ [(r, c)] ∧
      ingest st (line :: rest) = ingest ⟨st.graph, st.edges_read, st.warnings ++ [(r, c)]⟩ rest ∧
      (r = 0 → decr64 r = 2 ^ 64 - 1) ∧ (c = 0 → decr64 c = 2 ^ 64 - 1) := by
  have hb : ¬ (decr64 r < st.graph.num_vertices ∧ decr64 c < st.graph.num_vertices) := by
    rw [valid_record_iff hN hp]
    exact hout
  have hstep := process_line_out_of_bounds hp hb
  refine ⟨by rw [hstep], by rw [hstep], by rw [hstep], ?_, ?_, ?_⟩
  · unfold ingest
    rw [List.foldl_cons, hstep]
  · intro h0
    subst h0
    decide
  · intro h0
    subst h0
    decide

/-- C12. For every accepted input (shorter than 2^64 bytes, so that the 64-bit counter cannot
wrap) with dimension line `rows cols entries` and `N = max rows cols`, `edges_read` equals the
number of lines read after the dimension line that parse as a record with both coordinates
in `1..N`: every such line counts, whether or not it changes the matrix. -/
theorem edges_read_counts_valid_records (s : List Char) (out : Output)
    (rows cols entries : Nat)
    (hdr : read_header s = some (rows, cols, entries))
    (h : read_mtx_file (some s) = Except.ok out) (hlen : s.length < 2 ^ 64) :
    out.edges_read = (edge_lines s).countP (valid_record (max rows cols)) := by
  obtain ⟨rows', cols', entries', hdr', hN, _, he, _⟩ := read_mtx_file_ok h
  rw [hdr] at hdr'
  injection hdr' with hdr'
  injection hdr' with h1 hdr'
  injection hdr' with h2 h3
  subst h1 h2 h3
  rw [he]
  have hl := edge_lines_length s
  exact edges_read_from_start (by have := vector_max_size_lt; omega) _ (by omega)

/-- C13. Self-loops are absorbed: in every state reached by the edge loop (on an input
shorter than 2^64 bytes, so that the 64-bit counter cannot wrap), a buffer that parses as
the record `(i, i)` with `1 ≤ i ≤ N` leaves the graph, hence the matrix and `num_edges`,
unchanged, adds no warning, and increments `edges_read` by exactly 1. -/
theorem self_loop_absorbed (s : List Char) (rows cols entries : Nat) (k : Nat)
    (st : IngestState) (line : List Char) (i : Nat)
    (hdr : read_header s = some (rows, cols, entries))
    (hk : state_after s k = some st) (hlen : s.length < 2 ^ 64)
    (hp : parse_record line = some (i, i)) (h1 : 1 ≤ i) (h2 : i ≤ max rows cols) :
    (process_line st line).graph = st.graph ∧
      (process_line st line).edges_read = st.edges_read + 1 ∧
      (process_line st line).warnings = st.warnings := by
  obtain ⟨hN, hst⟩ := state_after_of_header hdr hk
  have hN64 : max rows cols < 2 ^ 64 := by have := vector_max_size_lt; omega
  have hinv := state_after_inv hdr hk
  have hb : decr64 i < st.graph.num_vertices ∧ decr64 i < st.graph.num_vertices := by
    rw [hinv.nv, valid_record_iff hN64 hp]
    exact ⟨h1, h2, h1, h2⟩
  rw [process_line_valid hp hb, install_edge_self hinv]
  refine ⟨rfl, ?_, rfl⟩
  simp only
  have hlines := edge_lines_length_lt hdr
  have htake : ((edge_lines s).take k).length ≤ (edge_lines s).length := by
    rw [List.length_take]
    exact Nat.min_le_right _ _
  have hcount := edges_read_from_start hN64 ((edge_lines s).take k) (by omega)
  rw [← hst] at hcount
  have hle := List.countP_le_length (valid_record (max rows cols)) (l := (edge_lines s).take k)
  rw [← hcount] at hle
  unfold UINT64_RANGE
  exact Nat.mod_eq_of_lt (by omega)

/-! ## The inner guards of the install step -/

theorem install_edge_guards {N : Nat} (hN : N + 63 < 2 ^ 64) {g : Graph} (h : GraphInv N g)
    {row col : Nat} (hr : row < N) (hc : col < N)
    (ht : test_bit g.adjacency_matrix row col = true) :
    row ≠ col ∧ test_bit g.adjacency_matrix col row = true ∧
      test_bit (reset_bit g.adjacency_matrix row col) col row = true := by
  rw [test_bit_eq_bit_at] at ht
  have hne : row ≠ col := by
    intro he
    subst he
    rw [h.diag] at ht
    exact Bool.noConfusion ht
  refine ⟨hne, ?_, ?_⟩
  · rw [test_bit_eq_bit_at, h.symm col row]
    exact ht
  · rw [test_bit_eq_bit_at, bit_at_reset_bit hN h.shape hr hc, h.symm col row, ht]
    have : ¬ (col = row ∧ row = col) := fun hh => hne hh.2
    simp [this]

theorem install_edge_eq_unguarded {N : Nat} (hN : N + 63 < 2 ^ 64) {g : Graph}
    (h : GraphInv N g) {row col : Nat} (hr : row < N) (hc : col < N) :
    install_edge g row col = install_edge_unguarded g row col := by
  unfold install_edge install_edge_unguarded
  by_cases ht : test_bit g.adjacency_matrix row col = true
  · obtain ⟨hne, _, hm⟩ := install_edge_guards hN h hr hc ht
    simp only [ht, if_true, hne, ne_eq, not_false_eq_true, hm]
  · simp only [ht, Bool.false_eq_true, if_false]

theorem process_line_eq_unguarded {N : Nat} (hN : N + 63 < 2 ^ 64) {st : IngestState}
    (h : GraphInv N st.graph) (line : List Char) :
    process_line st line = process_line_unguarded st line := by
  unfold process_line process_line_unguarded
  cases hp : parse_record line with
  | none => rfl
  | some rc =>
    obtain ⟨r, c⟩ := rc
    simp only
    by_cases hb : decr64 r < st.graph.num_vertices ∧ decr64 c < st.graph.num_vertices
    · rw [if_pos hb, if_pos hb]
      rw [h.nv] at hb
      rw [install_edge_eq_unguarded hN h hb.1 hb.2]
    · rw [if_neg hb, if_neg hb]

/-- C20. The two inner guards of the install branch are redundant in every state reached by
the edge loop: whenever an in-bounds pair `(row, col)` finds bit `(row, col)` equal to 1,
then `row ≠ col` and the mirror bit `(col, row)` is 1, before and after the reset of bit
`(row, col)`; so the install step, and with it the iteration of the edge loop, equals the one
that resets both bits and increments `num_edges` once without testing the guards. -/
theorem inner_guards_redundant (s : List Char) (rows cols entries : Nat) (k : Nat)
    (st : IngestState) (row col : Nat)
    (hdr : read_header s = some (rows, cols, entries))
    (hk : state_after s k = some st)
    (hr : row < max rows cols) (hc : col < max rows cols) :
    (test_bit st.graph.adjacency_matrix row col = true →
        row ≠ col ∧ test_bit st.graph.adjacency_matrix col row = true ∧
          test_bit (reset_bit st.graph.adjacency_matrix row col) col row = true) ∧
      install_edge st.graph row col = install_edge_unguarded st.graph row col ∧
      ∀ line, process_line st line = process_line_unguarded st line := by
  obtain ⟨hN, _⟩ := state_after_of_header hdr hk
  have hN64 : max rows cols + 63 < 2 ^ 64 := by have := vector_max_size_lt; omega
  have hinv := state_after_inv hdr hk
  exact ⟨install_edge_guards hN64 hinv hr hc, install_edge_eq_unguarded hN64 hinv hr hc,
    process_line_eq_unguarded hN64 hinv⟩

/-! ## Order of the records -/

theorem hits_of_parse_eq {N : Nat} {l l' : List Char} (h : parse_record l = parse_record l')
    (a b : Nat) : hits N l a b ↔ hits N l' a b := by
  unfold hits
  rw [h]

theorem exists_hits_of_subset {N : Nat} {E E' : List (List Char)}
    (h : ∀ p ∈ E.map parse_record, p ∈ E'.map parse_record) {a b : Nat}
    (hx : ∃ l ∈ E, hits N l a b) : ∃ l ∈ E', hits N l a b := by
  obtain ⟨l, hl, hh⟩ := hx
  have hmem := h _ (List.mem_map_of_mem parse_record hl)
  obtain ⟨l', hl', heq⟩ := List.mem_map.mp hmem
  exact ⟨l', hl', (hits_of_parse_eq heq a b).mpr hh⟩

theorem countP_valid_record (N : Nat) (E : List (List Char)) :
    E.countP (valid_record N) = (E.map parse_record).countP (valid_parsed N) := by
  rw [List.countP_map]
  rfl

theorem edges_read_eq_mod {N : Nat} (hN : N < 2 ^ 64) (lines : List (List Char)) :
    (ingest ⟨initial_graph N, 0, []⟩ lines).edges_read
      = lines.countP (valid_record N) % 2 ^ 64 := by
  have h1 : (ingest ⟨initial_graph N, 0, []⟩ lines).edges_read % 2 ^ 64
      = (0 + lines.countP (valid_record N)) % 2 ^ 64 :=
    ingest_edges_read hN lines rfl
  have h2 : (ingest ⟨initial_graph N, 0, []⟩ lines).edges_read < 2 ^ 64 :=
    ingest_edges_read_lt lines (show (0 : Nat) < 2 ^ 64 by decide)
  rw [Nat.zero_add, Nat.mod_eq_of_lt h2] at h1
  exact h1

theorem has_record_iff_hits {s : List Char} {N : Nat} (hN : N < 2 ^ 64) (i j : Nat) :
    has_record s N i j ↔ ∃ l ∈ edge_lines s, hits N l i j := by
  unfold has_record
  constructor
  · rintro ⟨l, hl, hh⟩
    exact ⟨l, hl, (hits_iff hN l i j).mpr hh⟩
  · rintro ⟨l, hl, hh⟩
    exact ⟨l, hl, (hits_iff hN l i j).mp hh⟩

theorem hits_lt {N : Nat} {l : List Char} {a b : Nat} (h : hits N l a b) : a < N ∧ b < N := by
  unfold hits at h
  obtain ⟨r, c, _, h1, h2, h3⟩ := h
  rcases h3 with ⟨ha, hb⟩ | ⟨ha, hb⟩
  · rw [ha, hb]
    exact ⟨h1, h2⟩
  · rw [ha, hb]
    exact ⟨h2, h1⟩

/-- C19. Order independence: for two inputs with the same dimension line whose edge lines
give the same records up to order (in particular when the lines of one are a permutation of
the lines of the other), `read_mtx_file` yields the same graph, that is identical matrices
and equal `num_edges`, and equal `edges_read`; and the graph is already the same when the
two inputs have records for the same in-bounds unordered pairs. -/
theorem order_independent (F F' : List Char) (rows cols entries : Nat)
    (hdr : read_header F = some (rows, cols, entries))
    (hh : read_header F' = read_header F) :
    (((edge_lines F).map parse_record).Perm ((edge_lines F').map parse_record) →
        (read_mtx_file (some F)).map Output.graph = (read_mtx_file (some F')).map Output.graph ∧
        (read_mtx_file (some F)).map Output.edges_read
          = (read_mtx_file (some F')).map Output.edges_read) ∧
      ((∀ i j, i < max rows cols → j < max rows cols →
          (has_record F (max rows cols) i j ↔ has_record F' (max rows cols) i j)) →
        (read_mtx_file (some F)).map Output.graph
          = (read_mtx_file (some F')).map Output.graph) := by
  rw [read_mtx_file_by_parts F, read_mtx_file_by_parts F', hh, hdr]
  simp only
  by_cases hN : vector_max_size < max rows cols
  · rw [if_pos hN, if_pos hN]
    exact ⟨fun _ => ⟨rfl, rfl⟩, fun _ => rfl⟩
  · rw [if_neg hN, if_neg hN]
    simp only [Except.map]
    have hN64 : max rows cols < 2 ^ 64 := by have := vector_max_size_lt; omega
    constructor
    · intro hperm
      constructor
      · congr 1
        apply ingest_graph_congr (by omega)
        intro a b
        exact ⟨exists_hits_of_subset (fun p hp => hperm.subset hp),
          exists_hits_of_subset (fun p hp => hperm.symm.subset hp)⟩
      · congr 1
        rw [edges_read_eq_mod hN64, edges_read_eq_mod hN64, countP_valid_record,
          countP_valid_record, hperm.countP_eq]
    · intro hsame
      congr 1
      apply ingest_graph_congr (by omega)
      intro a b
      by_cases hab : a < max rows cols ∧ b < max rows cols
      · rw [← has_record_iff_hits hN64, ← has_record_iff_hits hN64]
        exact hsame a b hab.1 hab.2
      · constructor
        · rintro ⟨l, _, hl⟩
          exact absurd (hits_lt hl) hab
        · rintro ⟨l, _, hl⟩
          exact absurd (hits_lt hl) hab

/-! ## The last word of a pre-filled row -/

theorem high_zero_run_ge (k m w : Nat) (hm : m ≤ k)
    (hz : ∀ b, m ≤ b → b < k → w.testBit b = false) : k - m ≤ high_zero_run k w := by
  induction k with
  | zero => simp
  | succ k ih =>
    unfold high_zero_run
    by_cases hmk : m = k + 1
    · subst hmk
      simp
    · rw [hz k (by omega) (by omega)]
      have := ih (by omega) (fun b h1 h2 => hz b h1 (by omega))
      simp only [Bool.false_eq_true, if_false]
      omega

theorem high_zero_run_eq (k m w : Nat) (hm : m < k)
    (hz : ∀ b, m < b → b < k → w.testBit b = false) (hone : w.testBit m = true) :
    high_zero_run k w = k - 1 - m := by
  induction k with
  | zero => omega
  | succ k ih =>
    unfold high_zero_run
    by_cases hmk : m = k
    · subst hmk
      rw [hone]
      simp
    · rw [hz k (by omega) (by omega)]
      have := ih (by omega) (fun b h1 h2 => hz b h1 (by omega))
      simp only [Bool.false_eq_true, if_false]
      omega

theorem high_zero_run_all (k w : Nat) (hz : ∀ b, b < k → w.testBit b = false) :
    high_zero_run k w = k := by
  have h1 := high_zero_run_ge k 0 w (by omega) (fun b _ h2 => hz b h2)
  have h2 : high_zero_run k w ≤ k := by
    clear h1 hz
    induction k with
    | zero => simp [high_zero_run]
    | succ k ih =>
      unfold high_zero_run
      split
      · omega
      · omega
  omega

theorem word_at_testBit (m : List (List Nat)) (i c b : Nat) (hb : b < 64) :
    (word_at m i c).testBit b = bit_at m i (64 * c + b) := by
  unfold bit_at word_at
  have h1 : (64 * c + b) / 64 = c := by omega
  have h2 : (64 * c + b) % 64 = b := by omega
  rw [h1, h2]

theorem last_word_eq {N C : Nat} {m : List (List Nat)} (h : Shape N C m) {i : Nat} (hi : i < N) :
    last_word (m.getD i []) = word_at m i (C - 1) := by
  unfold last_word word_at
  rw [h.row_length hi]

/-- The bits of the last word of row `i` after the allocation loop, for `N` not a multiple
of 64. -/
theorem last_word_allocated {N : Nat} (hN : N + 63 < 2 ^ 64) (hmod : N % 64 ≠ 0) {i : Nat}
    (hi : i < N) (b : Nat) (hb : b < 64) :
    (last_word ((allocated_graph N).adjacency_matrix.getD i [])).testBit b
      = decide (b < N % 64) := by
  have hC := chunks_per_row_eq hN
  unfold allocated_graph
  simp only
  rw [last_word_eq (init_matrix_shape N _) hi, word_at_testBit _ _ _ _ hb, ← test_bit_eq_bit_at,
    test_bit_init_matrix hN]
  apply decide_eq_decide.mpr
  rw [hC]
  omega

/-- The bits of the last word of row `i` after the diagonal loop, for `N` not a multiple of
64. -/
theorem last_word_initial {N : Nat} (hN : N + 63 < 2 ^ 64) (hmod : N % 64 ≠ 0) {i : Nat}
    (hi : i < N) (b : Nat) (hb : b < 64) :
    (last_word ((initial_graph N).adjacency_matrix.getD i [])).testBit b
      = decide (b < N % 64 ∧ i ≠ N - N % 64 + b) := by
  have hC := chunks_per_row_eq hN
  rw [last_word_eq (initial_graph_shape N) hi, word_at_testBit _ _ _ _ hb, ← test_bit_eq_bit_at,
    test_bit_initial_graph hN]
  apply decide_eq_decide.mpr
  rw [hC]
  omega

theorem trailing_zero_bits_allocated {N : Nat} (hN : N + 63 < 2 ^ 64) (hmod : N % 64 ≠ 0)
    {i : Nat} (hi : i < N) :
    trailing_zero_bits (last_word ((allocated_graph N).adjacency_matrix.getD i []))
      = 64 - N % 64 := by
  unfold trailing_zero_bits
  have hlt : N % 64 < 64 := Nat.mod_lt _ (by decide)
  rw [high_zero_run_eq 64 (N % 64 - 1) _ (by omega)]
  · omega
  · intro b h1 h2
    rw [last_word_allocated hN hmod hi b h2]
    simp only [decide_eq_false_iff_not]
    omega
  · rw [last_word_allocated hN hmod hi _ (by omega)]
    simp only [decide_eq_true_eq]
    omega

theorem trailing_zero_bits_initial {N : Nat} (hN : N + 63 < 2 ^ 64) (hmod : N % 64 ≠ 0)
    {i : Nat} (hi : i < N) (hne : i ≠ N - 1) :
    trailing_zero_bits (last_word ((initial_graph N).adjacency_matrix.getD i []))
      = 64 - N % 64 := by
  unfold trailing_zero_bits
  have hlt : N % 64 < 64 := Nat.mod_lt _ (by decide)
  rw [high_zero_run_eq 64 (N % 64 - 1) _ (by omega)]
  · omega
  · intro b h1 h2
    rw [last_word_initial hN hmod hi b h2]
    simp only [decide_eq_false_iff_not]
    omega
  · rw [last_word_initial hN hmod hi _ (by omega)]
    simp only [decide_eq_true_eq]
    omega

theorem trailing_zero_bits_initial_last {N : Nat} (hN : N + 63 < 2 ^ 64) (hmod : N % 64 ≠ 0) :
    64 - N % 64 < trailing_zero_bits (last_word ((initial_graph N).adjacency_matrix.getD (N - 1) []))
      := by
  unfold trailing_zero_bits
  have hlt : N % 64 < 64 := Nat.mod_lt _ (by decide)
  have hpos : 0 < N := by
    rcases Nat.eq_zero_or_pos N with h0 | h0
    · subst h0
      exact absurd rfl hmod
    · exact h0
  have := high_zero_run_ge 64 (N % 64 - 1)
    (last_word ((initial_graph N).adjacency_matrix.getD (N - 1) [])) (by omega) (by
      intro b h1 h2
      rw [last_word_initial hN hmod (by omega) b h2]
      simp only [decide_eq_false_iff_not]
      omega)
  omega

/-- C17 as stated fails on the last row: for the header `3 3 0` without records the last
word of row 2 is `0b011`, its diagonal bit 2 being 0, so the run of zero bits at the
high-order end has length 62 and not `64 - 3 mod 64 = 61`. -/
theorem last_row_run_is_longer :
    read_mtx_file (some empty_file) = Except.ok empty_out ∧
      empty_out.graph.num_vertices = 3 ∧
      last_word (empty_out.graph.adjacency_matrix.getD 2 []) = 3 ∧
      trailing_zero_bits (last_word (empty_out.graph.adjacency_matrix.getD 2 [])) = 62 ∧
      trailing_zero_bits (last_word (empty_out.graph.adjacency_matrix.getD 2 []))
        ≠ 64 - empty_out.graph.num_vertices % 64 :=
  ⟨by rfl, by decide, by decide, by decide, by decide⟩

/-- C17, amended. For an accepted file without records whose `N` is not a multiple of 64, the
last word of every row `i < N` other than row `N - 1` has exactly `64 - N mod 64` trailing
zero bits (the run of zero bits at the high-order end); in row `N - 1` the diagonal bit is
the highest logical bit of the last word, so the run there is longer; and after the
allocation loop, before the diagonal loop, the run is exactly `64 - N mod 64` in every row. -/
theorem prefill_trailing_zero_bits (s : List Char) (out : Output)
    (h : read_mtx_file (some s) = Except.ok out)
    (hno : ∀ l ∈ edge_lines s, parse_record l = none)
    (hmod : out.graph.num_vertices % 64 ≠ 0) (i : Nat) (hi : i < out.graph.num_vertices) :
    (i ≠ out.graph.num_vertices - 1 →
        trailing_zero_bits (last_word (out.graph.adjacency_matrix.getD i []))
          = 64 - out.graph.num_vertices % 64) ∧
      (i = out.graph.num_vertices - 1 →
        64 - out.graph.num_vertices % 64
          < trailing_zero_bits (last_word (out.graph.adjacency_matrix.getD i []))) ∧
      trailing_zero_bits
          (last_word ((allocated_graph out.graph.num_vertices).adjacency_matrix.getD i []))
        = 64 - out.graph.num_vertices % 64 := by
  obtain ⟨rows, cols, entries, _, hN, hg, _⟩ := read_mtx_file_ok h
  have hN64 : max rows cols + 63 < 2 ^ 64 := by have := vector_max_size_lt; omega
  rw [ingest_no_records _ _ hno] at hg
  simp only at hg
  rw [hg] at hmod hi ⊢
  have hnv : (initial_graph (max rows cols)).num_vertices = max rows cols := rfl
  rw [hnv] at hmod hi ⊢
  refine ⟨fun hne => trailing_zero_bits_initial hN64 hmod hi hne, ?_,
    trailing_zero_bits_allocated hN64 hmod hi⟩
  intro he
  rw [he]
  exact trailing_zero_bits_initial_last hN64 hmod

/-! ## Indexed accesses -/

theorem in_bounds_of_shape {N C : Nat} {m : List (List Nat)} (h : Shape N C m) {i j : Nat}
    (hN : N ≤ 64 * C) (hi : i < N) (hj : j < N) : in_bounds m (i, j >>> 6) := by
  unfold in_bounds
  simp only
  rw [h.1, h.row_length hi, shift6_eq_div]
  exact ⟨hi, by omega⟩

theorem vertex_count_le_words {N : Nat} (hN : N + 63 < 2 ^ 64) : N ≤ 64 * chunks_per_row N := by
  rw [chunks_per_row_eq hN]
  omega

theorem install_edge_accesses_mem {g : Graph} {row col : Nat} {a : Nat × Nat}
    (h : a ∈ install_edge_accesses g row col) : a = (row, col >>> 6) ∨ a = (col, row >>> 6) := by
  unfold install_edge_accesses at h
  rcases List.mem_cons.mp h with h | h
  · exact Or.inl h
  · split at h
    · rcases List.mem_cons.mp h with h | h
      · exact Or.inl h
      · split at h
        · rcases List.mem_cons.mp h with h | h
          · exact Or.inr h
          · split at h
            · exact Or.inr (List.mem_singleton.mp h)
            · exact absurd h (List.not_mem_nil a)
        · exact absurd h (List.not_mem_nil a)
    · exact absurd h (List.not_mem_nil a)

theorem print_size_eq_min (g : Graph) (max_size : Nat) :
    print_size g max_size = min g.num_vertices max_size := by
  unfold print_size
  split <;> omega

theorem print_accesses_mem {g : Graph} {max_size : Nat} {a : Nat × Nat}
    (h : a ∈ print_adjacency_matrix_accesses g max_size) :
    ∃ i j, i < min g.num_vertices max_size ∧ j < min g.num_vertices max_size ∧
      a = (i, j >>> 6) := by
  unfold print_adjacency_matrix_accesses at h
  rw [print_size_eq_min] at h
  simp only [List.mem_flatMap, List.mem_range, List.mem_map] at h
  obtain ⟨i, hi, j, hj, rfl⟩ := h
  exact ⟨i, j, hi, hj, rfl⟩

/-- C18. Every indexed access to the adjacency matrix is in bounds. For an accepted input
with `N = max rows cols` and `C = chunks_per_row N`, which is the ceiling of `N / 64`:
the diagonal loop accesses `(i, i >> 6)` with `i < N` and `i >> 6 < C`, inside the allocated
matrix; in every state of the edge loop a record that passes the check `row < N` and
`col < N` accesses only `(row, col >> 6)` and `(col, row >> 6)`, inside the matrix; and
`print_adjacency_matrix` on the returned graph accesses only `(i, j >> 6)` with
`i, j < min N max_size`, inside the matrix. -/
theorem accesses_in_bounds (s : List Char) (out : Output) (rows cols entries : Nat)
    (k : Nat) (st : IngestState) (row col max_size : Nat)
    (hdr : read_header s = some (rows, cols, entries))
    (h : read_mtx_file (some s) = Except.ok out)
    (hk : state_after s k = some st)
    (hr : row < max rows cols) (hc : col < max rows cols) :
    (max rows cols ≤ 64 * chunks_per_row (max rows cols) ∧
        64 * chunks_per_row (max rows cols) < max rows cols + 64) ∧
      (∀ a ∈ reset_diagonal_accesses (max rows cols),
        a.1 < max rows cols ∧ a.2 < chunks_per_row (max rows cols) ∧
          in_bounds (allocated_graph (max rows cols)).adjacency_matrix a) ∧
      (∀ a ∈ install_edge_accesses st.graph row col,
        a.1 < max rows cols ∧ a.2 < chunks_per_row (max rows cols) ∧
          in_bounds st.graph.adjacency_matrix a ∧
          in_bounds (reset_bit st.graph.adjacency_matrix row col) a) ∧
      (∀ a ∈ print_adjacency_matrix_accesses out.graph max_size,
        (∃ i j, i < min (max rows cols) max_size ∧ j < min (max rows cols) max_size ∧
          a = (i, j >>> 6)) ∧
          in_bounds out.graph.adjacency_matrix a) := by
  obtain ⟨hN, _, _⟩ := header_eq_of_ok hdr h
  have hN64 : max rows cols + 63 < 2 ^ 64 := by have := vector_max_size_lt; omega
  have hC := chunks_per_row_eq hN64
  have hle := vertex_count_le_words hN64
  have hinv := state_after_inv hdr hk
  have hout := read_mtx_file_inv hdr h
  refine ⟨⟨hle, by rw [hC]; omega⟩, ?_, ?_, ?_⟩
  · intro a ha
    unfold reset_diagonal_accesses at ha
    simp only [List.mem_map, List.mem_range] at ha
    obtain ⟨i, hi, rfl⟩ := ha
    refine ⟨hi, by rw [shift6_eq_div, hC]; simp only; omega, ?_⟩
    exact in_bounds_of_shape (init_matrix_shape _ _) hle hi hi
  · intro a ha
    have hs1 := Shape.reset_bit hinv.shape row col
    rcases install_edge_accesses_mem ha with rfl | rfl
    · exact ⟨hr, by rw [shift6_eq_div, hC]; simp only; omega,
        in_bounds_of_shape hinv.shape hle hr hc, in_bounds_of_shape hs1 hle hr hc⟩
    · exact ⟨hc, by rw [shift6_eq_div, hC]; simp only; omega,
        in_bounds_of_shape hinv.shape hle hc hr, in_bounds_of_shape hs1 hle hc hr⟩
  · intro a ha
    obtain ⟨i, j, hi, hj, rfl⟩ := print_accesses_mem ha
    rw [hout.nv] at hi hj
    refine ⟨⟨i, j, hi, hj, rfl⟩, ?_⟩
    exact in_bounds_of_shape hout.shape hle (by omega) (by omega)

/-! ## The header loop -/

theorem scan_header_cons_skipped {line : List Char} (h : skipped_by_header_scan line)
    (rest : List (List Char)) : scan_header (line :: rest) = scan_header rest := by
  rw [scan_header]
  by_cases hc : first_char line = '%'
  · rw [if_pos hc]
  · rw [if_neg hc]
    rcases h with h | h
    · exact absurd h hc
    · rw [if_neg h]

theorem scan_header_cons_found {line : List Char} (hc : first_char line ≠ '%')
    (h3 : (sscanf_lu 3 line).1 = 3) (rest : List (List Char)) :
    scan_header (line :: rest) = some (triple_of line, rest) := by
  rw [scan_header, if_neg hc, if_pos h3]
  rfl

theorem scan_header_none_iff (L : List (List Char)) :
    scan_header L = none ↔ ∀ l ∈ L, skipped_by_header_scan l := by
  induction L with
  | nil => simp [scan_header]
  | cons l ls ih =>
    by_cases hs : skipped_by_header_scan l
    · rw [scan_header_cons_skipped hs, ih]
      simp only [List.mem_cons, forall_eq_or_imp, hs, true_and]
    · unfold skipped_by_header_scan at hs
      have hc : first_char l ≠ '%' := fun h => hs (Or.inl h)
      have h3 : (sscanf_lu 3 l).1 = 3 := by
        by_contra hne
        exact hs (Or.inr hne)
      rw [scan_header_cons_found hc h3]
      constructor
      · intro h
        exact Option.noConfusion h
      · intro h
        exact absurd (h l (List.mem_cons_self _ _)) (by unfold skipped_by_header_scan; exact hs)

theorem scan_header_append_skipped (pre L : List (List Char))
    (hpre : ∀ l ∈ pre, skipped_by_header_scan l) : scan_header (pre ++ L) = scan_header L := by
  induction pre with
  | nil => rfl
  | cons l ls ih =>
    rw [List.cons_append, scan_header_cons_skipped (hpre l (List.mem_cons_self _ _))]
    exact ih (fun x hx => hpre x (List.mem_cons_of_mem _ hx))

theorem read_mtx_file_bad_header_iff (s : List Char) :
    read_mtx_file (some s) = Except.error BuildError.BadHeader
      ↔ scan_header (read_lines MAX_LINE_LENGTH s) = none := by
  rw [read_mtx_file_eq]
  cases hs : scan_header (read_lines MAX_LINE_LENGTH s) with
  | none => simp
  | some p =>
    obtain ⟨⟨rows, cols, entries⟩, rest⟩ := p
    simp only
    by_cases ha : vector_max_size < vertex_count rows cols
    · rw [if_pos ha]
      simp
    · rw [if_neg ha]
      simp

/-- C15. For every openable input, `read_mtx_file` fails with `BadHeader` if and only if end
of stream is reached without a line that is not a comment and from which `sscanf` reads
three numbers; and when the lines read are `pre`, then such a line `line`, then `rest`, all
lines of `pre` being comments or not triples, the lines of `pre` are skipped, the triple of
`line` is the one used, and the edge loop runs over `rest`. -/
theorem bad_header_iff_no_triple (s : List Char) :
    (read_mtx_file (some s) = Except.error BuildError.BadHeader ↔
        ∀ line ∈ read_lines MAX_LINE_LENGTH s,
          first_char line = '%' ∨ (sscanf_lu 3 line).1 ≠ 3) ∧
      (∀ pre line rest, read_lines MAX_LINE_LENGTH s = pre ++ line :: rest →
        (∀ l ∈ pre, first_char l = '%' ∨ (sscanf_lu 3 l).1 ≠ 3) →
        first_char line ≠ '%' → (sscanf_lu 3 line).1 = 3 →
        read_header s = some (triple_of line) ∧ edge_lines s = rest ∧
          read_mtx_file (some s) ≠ Except.error BuildError.BadHeader) := by
  constructor
  · rw [read_mtx_file_bad_header_iff, scan_header_none_iff]
    rfl
  · intro pre line rest hl hpre hc h3
    have hscan : scan_header (read_lines MAX_LINE_LENGTH s) = some (triple_of line, rest) := by
      rw [hl, scan_header_append_skipped pre _ hpre, scan_header_cons_found hc h3]
    refine ⟨?_, ?_, ?_⟩
    · unfold read_header
      rw [hscan]
      rfl
    · unfold edge_lines
      rw [hscan]
    · rw [Ne, read_mtx_file_bad_header_iff, hscan]
      exact fun h => Option.noConfusion h

/-! ## Lines that fit the buffer -/

theorem fgets_take_line (room : Nat) (l B : List Char) (hlen : l.length < room)
    (hnl : '\n' ∉ l) : fgets_take room (l ++ '\n' :: B) = (l ++ ['\n'], B) := by
  induction l generalizing room with
  | nil =>
    cases room with
    | zero => omega
    | succ n => simp [fgets_take]
  | cons c t ih =>
    cases room with
    | zero => omega
    | succ n =>
      have hc : c ≠ '\n' := fun h => hnl (by rw [h]; exact List.mem_cons_self _ _)
      have ht : '\n' ∉ t := fun h => hnl (List.mem_cons_of_mem _ h)
      simp only [List.length_cons] at hlen
      rw [List.cons_append]
      unfold fgets_take
      rw [if_neg hc, ih n (by omega) ht]
      rfl

/-- A line of at most `n + 1` bytes, newline included, is read as one buffer by `fgets` with a
buffer of `n + 2` bytes, and reading goes on after it. -/
theorem read_lines_line (n : Nat) (l B : List Char) (hlen : l.length ≤ n) (hnl : '\n' ∉ l) :
    read_lines (n + 2) (l ++ '\n' :: B) = (l ++ ['\n']) :: read_lines (n + 2) B := by
  cases l with
  | nil =>
    rw [List.nil_append, read_lines_cons]
    simp [fgets_take]
  | cons c t =>
    rw [List.cons_append, read_lines_cons, ← List.cons_append,
      fgets_take_line (n + 1) (c :: t) B (by omega) hnl]

theorem lineEnded_line (l : List Char) : LineEnded (l ++ ['\n']) := by
  right
  simp

/-- The result of `read_mtx_file` is determined by what the header loop finds. -/
theorem read_mtx_file_congr {s s' : List Char}
    (h : scan_header (read_lines MAX_LINE_LENGTH s) = scan_header (read_lines MAX_LINE_LENGTH s')) :
    read_mtx_file (some s) = read_mtx_file (some s') ∧ read_header s = read_header s' ∧
      edge_lines s = edge_lines s' := by
  rw [read_mtx_file_eq, read_mtx_file_eq]
  unfold read_header edge_lines
  rw [h]
  exact ⟨rfl, rfl, rfl⟩

theorem first_char_cons (c : Char) (t : List Char) : first_char (c :: t) = c := rfl

theorem read_long_comment_file :
    read_mtx_file (some long_comment_file) = Except.ok long_comment_out := by rfl

theorem read_no_comment_file :
    read_mtx_file (some no_comment_file) = Except.ok no_comment_out := by rfl

/-- C16 as stated fails for a comment line longer than the line buffer: ahead of the
dimension line `3 3 0`, the 69-byte comment line made of `%`, 62 letters `x` and `7 7 0` is
read as two buffers, the second of which is taken for the dimension line, so the parsed
triple becomes `(7, 7, 0)` and the returned graph has 7 vertices instead of 3. -/
theorem long_comment_changes_header :
    long_comment_file = ('%' :: List.replicate 62 'x' ++ "7 7 0\n".toList) ++ no_comment_file ∧
      read_header no_comment_file = some (3, 3, 0) ∧
      read_header long_comment_file = some (7, 7, 0) ∧
      read_mtx_file (some no_comment_file) = Except.ok no_comment_out ∧
      read_mtx_file (some long_comment_file) = Except.ok long_comment_out ∧
      no_comment_out.graph.num_vertices = 3 ∧ long_comment_out.graph.num_vertices = 7 ∧
      read_mtx_file (some long_comment_file) ≠ read_mtx_file (some no_comment_file) := by
  refine ⟨by rfl, by rfl, by rfl, read_no_comment_file, read_long_comment_file, by rfl, by rfl, ?_⟩
  rw [read_long_comment_file, read_no_comment_file]
  intro h
  injection h with h
  have h7 : long_comment_out.graph.num_vertices = no_comment_out.graph.num_vertices := by
    rw [h]
  exact absurd h7 (by decide)

/-- C16, amended. A comment line that fits the line buffer (first character `%`, at most 63
bytes with its newline, any content) is discarded by the header loop: inserting it at a line
boundary ahead of the dimension line (after text `A` that is empty or ends with a newline
and holds no dimension line), or deleting it there, leaves the parsed triple, the lines of
the edge loop and the whole result of `read_mtx_file` unchanged. -/
theorem short_comment_discarded (A B body : List Char)
    (hA : LineEnded A) (hnone : read_header A = none)
    (hnl : '\n' ∉ body) (hlen : ('%' :: body ++ ['\n']).length ≤ 63) :
    read_mtx_file (some (A ++ ('%' :: body ++ '\n' :: B))) = read_mtx_file (some (A ++ B)) ∧
      read_header (A ++ ('%' :: body ++ '\n' :: B)) = read_header (A ++ B) ∧
      edge_lines (A ++ ('%' :: body ++ '\n' :: B)) = edge_lines (A ++ B) := by
  apply read_mtx_file_congr
  have hskipA : ∀ l ∈ read_lines MAX_LINE_LENGTH A, skipped_by_header_scan l := by
    rw [← scan_header_none_iff]
    unfold read_header at hnone
    cases hs : scan_header (read_lines MAX_LINE_LENGTH A) with
    | none => rfl
    | some p =>
      rw [hs] at hnone
      exact Option.noConfusion hnone
  have hline : read_lines MAX_LINE_LENGTH ('%' :: body ++ '\n' :: B)
      = ('%' :: body ++ ['\n']) :: read_lines MAX_LINE_LENGTH B := by
    have := read_lines_line 62 ('%' :: body) B
      (by simp only [List.length_cons, List.length_append, List.cons_append] at hlen ⊢; omega)
      (by
        intro h
        rcases List.mem_cons.mp h with h | h
        · exact absurd h (by decide)
        · exact hnl h)
    exact this
  have h1 : read_lines MAX_LINE_LENGTH (A ++ ('%' :: body ++ '\n' :: B))
      = read_lines MAX_LINE_LENGTH A ++ read_lines MAX_LINE_LENGTH ('%' :: body ++ '\n' :: B) :=
    read_lines_append 62 A _ hA
  have h2 : read_lines MAX_LINE_LENGTH (A ++ B)
      = read_lines MAX_LINE_LENGTH A ++ read_lines MAX_LINE_LENGTH B :=
    read_lines_append 62 A B hA
  rw [h1, h2, hline, scan_header_append_skipped _ _ hskipA, scan_header_append_skipped _ _ hskipA]
  have hcomment : skipped_by_header_scan ('%' :: body ++ ['\n']) := Or.inl rfl
  exact scan_header_cons_skipped hcomment _

/-! ## Parsing an edge line -/

theorem takeWhile_append_stop {p : Char → Bool} (a : List Char) (x : Char) (u : List Char)
    (ha : ∀ c ∈ a, p c = true) (hx : p x = false) : (a ++ x :: u).takeWhile p = a := by
  induction a with
  | nil => simp [List.takeWhile, hx]
  | cons c t ih =>
    rw [List.cons_append, List.takeWhile_cons, ha c (List.mem_cons_self _ _)]
    simp only [if_true]
    rw [ih (fun d hd => ha d (List.mem_cons_of_mem _ hd))]

theorem dropWhile_append_stop {p : Char → Bool} (a : List Char) (x : Char) (u : List Char)
    (ha : ∀ c ∈ a, p c = true) (hx : p x = false) : (a ++ x :: u).dropWhile p = x :: u := by
  induction a with
  | nil => simp [List.dropWhile, hx]
  | cons c t ih =>
    rw [List.cons_append, List.dropWhile_cons, ha c (List.mem_cons_self _ _)]
    simp only [if_true]
    exact ih (fun d hd => ha d (List.mem_cons_of_mem _ hd))

theorem isdigit_not_special {c : Char} (h : isdigit c = true) :
    isspace c = false ∧ c ≠ '\x00' ∧ c ≠ '-' ∧ c ≠ '+' ∧ c ≠ '\n' ∧ c ≠ '\r' := by
  have hle : '0' ≤ c ∧ c ≤ '9' := by
    unfold isdigit at h
    simpa using h
  have h1 : 48 ≤ c.val.toNat := hle.1
  have h2 : c.val.toNat ≤ 57 := hle.2
  have hne : ∀ d : Char, (d.val.toNat < 48 ∨ 57 < d.val.toNat) → c ≠ d := by
    intro d hd he
    subst he
    omega
  refine ⟨?_, hne _ (by decide), hne _ (by decide), hne _ (by decide), hne _ (by decide),
    hne _ (by decide)⟩
  unfold isspace
  have e1 := hne ' ' (by decide)
  have e2 := hne '\t' (by decide)
  have e3 := hne '\n' (by decide)
  have e4 := hne '\x0b' (by decide)
  have e5 := hne '\x0c' (by decide)
  have e6 := hne '\r' (by decide)
  simp [e1, e2, e3, e4, e5, e6]

/-- One `%lu` conversion on a digit string that is followed by a character that is not a
digit. -/
theorem conv_lu_number {ds : List Char} (hds : is_number_text ds) (x : Char) (u : List Char)
    (hx : isdigit x = false) :
    conv_lu (ds ++ x :: u) = ScanStep.converted (strtoul_digits ds) (x :: u) := by
  obtain ⟨hne, hall⟩ := hds
  cases ds with
  | nil => exact absurd rfl hne
  | cons d t =>
    have hd := isdigit_not_special (hall d (List.mem_cons_self _ _))
    unfold conv_lu
    have hdrop : ((d :: t) ++ x :: u).dropWhile isspace = (d :: t) ++ x :: u := by
      rw [List.cons_append, List.dropWhile_cons, hd.1]
      rfl
    rw [hdrop, List.cons_append]
    simp only
    have hsign : ¬ (d = '-' ∨ d = '+') := fun h => h.elim hd.2.2.1 hd.2.2.2.1
    rw [if_neg hsign, ← List.cons_append, takeWhile_append_stop (d :: t) x u hall hx,
      dropWhile_append_stop (d :: t) x u hall hx]
    rw [if_neg (List.cons_ne_nil d t), if_neg hd.2.2.1]
    rfl

theorem conv_lu_space (s : List Char) : conv_lu (' ' :: s) = conv_lu s := by
  unfold conv_lu
  have : (' ' :: s).dropWhile isspace = s.dropWhile isspace := by
    rw [List.dropWhile_cons]
    rfl
  rw [this]

theorem cstr_append_of_no_nul (a t : List Char) (ha : ∀ c ∈ a, c ≠ '\x00') :
    cstr (a ++ t) = a ++ cstr t := by
  unfold cstr
  induction a with
  | nil => rfl
  | cons c u ih =>
    rw [List.cons_append, List.takeWhile_cons]
    have hc := ha c (List.mem_cons_self _ _)
    simp only [ne_eq, hc, not_false_eq_true, decide_True, if_true, List.cons_append]
    rw [ih (fun d hd => ha d (List.mem_cons_of_mem _ hd))]

theorem cstr_cons_of_ne (x : Char) (t : List Char) (hx : x ≠ '\x00') :
    cstr (x :: t) = x :: cstr t := by
  unfold cstr
  rw [List.takeWhile_cons]
  simp [hx]

/-- Reading two numbers from `r`, a blank, `c`, and then a blank or a newline followed by
anything: the two numbers are read, whatever follows. -/
theorem sscanf_two_numbers {rt ct : List Char} (hr : is_number_text rt) (hc : is_number_text ct)
    (x : Char) (hx : x = ' ' ∨ x = '\n') (t : List Char) :
    sscanf_lu 2 (rt ++ ' ' :: (ct ++ x :: t)) = (2, [strtoul_digits rt, strtoul_digits ct]) := by
  have hxd : isdigit x = false := by
    rcases hx with rfl | rfl <;> decide
  have hx0 : x ≠ '\x00' := by
    rcases hx with rfl | rfl <;> decide
  have hrn : ∀ c ∈ rt, c ≠ '\x00' := fun c h => (isdigit_not_special (hr.2 c h)).2.1
  have hcn : ∀ c ∈ ct, c ≠ '\x00' := fun c h => (isdigit_not_special (hc.2 c h)).2.1
  have hcstr : cstr (rt ++ ' ' :: (ct ++ x :: t)) = rt ++ ' ' :: (ct ++ x :: cstr t) := by
    rw [cstr_append_of_no_nul _ _ hrn, cstr_cons_of_ne _ _ (by decide),
      cstr_append_of_no_nul _ _ hcn, cstr_cons_of_ne _ _ hx0]
  have h1 := conv_lu_number hr ' ' (ct ++ x :: cstr t) (by decide)
  have h2 := conv_lu_number hc x (cstr t) hxd
  unfold sscanf_lu
  rw [hcstr]
  have hvals : sscanf_vals 2 (rt ++ ' ' :: (ct ++ x :: cstr t))
      = [strtoul_digits rt, strtoul_digits ct] := by
    rw [sscanf_vals, h1]
    simp only
    rw [sscanf_vals, conv_lu_space, h2]
    simp only
    rw [sscanf_vals]
  rw [hvals, h1]
  simp

theorem first_char_number {rt : List Char} (hr : is_number_text rt) (t : List Char) :
    is_blank (rt ++ t) = false := by
  obtain ⟨hne, hall⟩ := hr
  cases rt with
  | nil => exact absurd rfl hne
  | cons d u =>
    have hd := isdigit_not_special (hall d (List.mem_cons_self _ _))
    unfold is_blank first_char
    simp [hd.2.1, hd.2.2.2.2.1, hd.2.2.2.2.2]

/-- The record of an edge line `r c`, followed by a blank or a newline and anything. -/
theorem parse_record_two_numbers {rt ct : List Char} (hr : is_number_text rt)
    (hc : is_number_text ct) (x : Char) (hx : x = ' ' ∨ x = '\n') (t : List Char) :
    parse_record (rt ++ ' ' :: (ct ++ x :: t)) = some (strtoul_digits rt, strtoul_digits ct) := by
  unfold parse_record
  rw [first_char_number hr, sscanf_two_numbers hr hc x hx t]
  simp

theorem read_weighted_file : read_mtx_file (some weighted_file) = Except.ok weighted_out := by
  rfl

theorem process_long_weight_line :
    process_text start_state_3 long_weight_line = long_weight_state := by rfl

theorem process_plain_line : process_text start_state_3 plain_line = plain_state := by rfl

/-- C14 as stated fails for a trailing token that makes the line longer than the line
buffer: the 67-byte line `1 2 w`, with `w` made of 59 letters `x` and `2+3`, is read as two
buffers, and `sscanf` reads the record `(2, 3)` from the second one, `2+3`; so the line
installs two edges and counts two records where the line `1 2` installs and counts one. -/
theorem long_weight_not_discarded :
    long_weight_line = "1 2 ".toList ++ long_weight_token ++ "\n".toList ∧
      (∀ ch ∈ long_weight_token, isspace ch = false) ∧
      read_lines MAX_LINE_LENGTH long_weight_line
        = ["1 2 ".toList ++ List.replicate 59 'x', "2+3\n".toList] ∧
      parse_record "2+3\n".toList = some (2, 3) ∧
      process_text start_state_3 long_weight_line = long_weight_state ∧
      process_text start_state_3 plain_line = plain_state ∧
      long_weight_state.graph.num_edges = 2 ∧ plain_state.graph.num_edges = 1 ∧
      process_text start_state_3 long_weight_line ≠ process_text start_state_3 plain_line := by
  refine ⟨by rfl, by decide, by rfl, by rfl, process_long_weight_line, process_plain_line,
    by rfl, by rfl, ?_⟩
  rw [process_long_weight_line, process_plain_line]
  decide

/-- C14, amended. A trailing token is discarded when the line fits the line buffer: for every
state, all unsigned integers with digit strings `rt` and `ct` and every token `w` without a
newline such that the line `rt ct w` has at most 63 bytes with its newline, the buffer parses
as the record `(r, c)`, and the edge loop has the same effect on the line `rt ct w` as on the
line `rt ct`, on the graph, on `edges_read` and on the warnings. -/
theorem short_weight_discarded (st : IngestState) (rt ct w : List Char)
    (hr : is_number_text rt) (hc : is_number_text ct) (hw : '\n' ∉ w)
    (hlen : (rt ++ ' ' :: (ct ++ ' ' :: (w ++ ['\n']))).length ≤ 63) :
    parse_record (rt ++ ' ' :: (ct ++ ' ' :: (w ++ ['\n'])))
        = some (strtoul_digits rt, strtoul_digits ct) ∧
      process_line st (rt ++ ' ' :: (ct ++ ' ' :: (w ++ ['\n'])))
        = process_line st (rt ++ ' ' :: (ct ++ ['\n'])) ∧
      process_text st (rt ++ ' ' :: (ct ++ ' ' :: (w ++ ['\n'])))
        = process_text st (rt ++ ' ' :: (ct ++ ['\n'])) := by
  have hp1 := parse_record_two_numbers hr hc ' ' (Or.inl rfl) (w ++ ['\n'])
  have hp2 := parse_record_two_numbers hr hc '\n' (Or.inr rfl) []
  have hstep : process_line st (rt ++ ' ' :: (ct ++ ' ' :: (w ++ ['\n'])))
      = process_line st (rt ++ ' ' :: (ct ++ ['\n'])) := by
    unfold process_line
    rw [hp1, hp2]
  have hrn : ∀ c ∈ rt, c ≠ '\n' := fun c h => (isdigit_not_special (hr.2 c h)).2.2.2.2.1
  have hcn : ∀ c ∈ ct, c ≠ '\n' := fun c h => (isdigit_not_special (hc.2 c h)).2.2.2.2.1
  simp only [List.length_append, List.length_cons, List.length_nil] at hlen
  have hl1 : read_lines MAX_LINE_LENGTH (rt ++ ' ' :: (ct ++ ' ' :: (w ++ ['\n'])))
      = [rt ++ ' ' :: (ct ++ ' ' :: (w ++ ['\n']))] := by
    have h := read_lines_line 62 (rt ++ ' ' :: (ct ++ ' ' :: w)) []
      (by simp only [List.length_append, List.length_cons]; omega)
      (by
        intro hmem
        rcases List.mem_append.mp hmem with h | h
        · exact hrn _ h rfl
        · rcases List.mem_cons.mp h with h | h
          · exact absurd h (by decide)
          · rcases List.mem_append.mp h with h | h
            · exact hcn _ h rfl
            · rcases List.mem_cons.mp h with h | h
              · exact absurd h (by decide)
              · exact hw h)
    rw [read_lines_nil] at h
    simpa [MAX_LINE_LENGTH] using h
  have hl2 : read_lines MAX_LINE_LENGTH (rt ++ ' ' :: (ct ++ ['\n']))
      = [rt ++ ' ' :: (ct ++ ['\n'])] := by
    have h := read_lines_line 62 (rt ++ ' ' :: ct) []
      (by simp only [List.length_append, List.length_cons]; omega)
      (by
        intro hmem
        rcases List.mem_append.mp hmem with h | h
        · exact hrn _ h rfl
        · rcases List.mem_cons.mp h with h | h
          · exact absurd h (by decide)
          · exact hcn _ h rfl)
    rw [read_lines_nil] at h
    simpa [MAX_LINE_LENGTH] using h
  refine ⟨hp1, hstep, ?_⟩
  unfold process_text ingest
  rw [hl1, hl2, List.foldl_cons, List.foldl_cons, hstep]

/-! ## The claims on counters, parsing and accesses at concrete inputs -/

theorem state_after_oob_zero : state_after oob_file 0 = some start_state_3 := by rfl

/-- C11 on scenario 4 of the spec: after the record `1 2`, the record `4 1` changes nothing
but the warnings, to which it adds `(4, 1)`; the run ends with `num_edges = 1`. -/
theorem out_of_bounds_skipped_witness :
    ((process_line oob_mid "4 1\n".toList).graph = oob_mid.graph ∧
      (process_line oob_mid "4 1\n".toList).edges_read = oob_mid.edges_read ∧
      (process_line oob_mid "4 1\n".toList).warnings = oob_mid.warnings ++ [(4, 1)] ∧
      ingest oob_mid ["4 1\n".toList, "2 3\n".toList]
        = ingest ⟨oob_mid.graph, oob_mid.edges_read, oob_mid.warnings ++ [(4, 1)]⟩
            ["2 3\n".toList] ∧
      ((4 : Nat) = 0 → decr64 4 = 2 ^ 64 - 1) ∧ ((1 : Nat) = 0 → decr64 1 = 2 ^ 64 - 1)) ∧
      read_mtx_file (some oob_file) = Except.ok oob_out ∧
      oob_out.warnings = [(4, 1)] ∧ oob_out.graph.num_edges = 1 :=
  ⟨out_of_bounds_skipped oob_mid "4 1\n".toList 4 1 ["2 3\n".toList] (by decide) (by rfl)
      (by decide),
    read_oob_file, by rfl, by rfl⟩

/-- C12 on scenario 3 of the spec: four in-bounds records, two unique edges. -/
theorem edges_read_counts_valid_records_witness :
    duplicate_out.edges_read = (edge_lines duplicate_file).countP (valid_record (max 3 3)) ∧
      duplicate_out.edges_read = 4 ∧ duplicate_out.graph.num_edges = 2 :=
  ⟨edges_read_counts_valid_records duplicate_file duplicate_out 3 3 4 (by rfl)
      read_duplicate_file (by decide),
    by rfl, by rfl⟩

/-- C13 on the state after the first record of scenario 4: the record `2 2`. -/
theorem self_loop_absorbed_witness :
    (process_line oob_mid "2 2\n".toList).graph = oob_mid.graph ∧
      (process_line oob_mid "2 2\n".toList).edges_read = oob_mid.edges_read + 1 ∧
      (process_line oob_mid "2 2\n".toList).warnings = oob_mid.warnings :=
  self_loop_absorbed oob_file 3 3 2 1 oob_mid "2 2\n".toList 2 (by rfl) state_after_oob_one
    (by decide) (by rfl) (by decide) (by decide)

/-- C14, amended, on the line of scenario 6 of the spec, `1 2 3.14`. -/
theorem short_weight_discarded_witness :
    (parse_record ("1".toList ++ ' ' :: ("2".toList ++ ' ' :: ("3.14".toList ++ ['\n'])))
        = some (strtoul_digits "1".toList, strtoul_digits "2".toList) ∧
      process_line start_state_3
          ("1".toList ++ ' ' :: ("2".toList ++ ' ' :: ("3.14".toList ++ ['\n'])))
        = process_line start_state_3 ("1".toList ++ ' ' :: ("2".toList ++ ['\n'])) ∧
      process_text start_state_3
          ("1".toList ++ ' ' :: ("2".toList ++ ' ' :: ("3.14".toList ++ ['\n'])))
        = process_text start_state_3 ("1".toList ++ ' ' :: ("2".toList ++ ['\n']))) ∧
      read_mtx_file (some weighted_file) = Except.ok weighted_out ∧
      weighted_out.graph.num_edges = 1 :=
  ⟨short_weight_discarded start_state_3 "1".toList "2".toList "3.14".toList
      ⟨by decide, by decide⟩ ⟨by decide, by decide⟩ (by decide) (by decide),
    read_weighted_file, by rfl⟩

/-- C15 on a file without a dimension line and on a file in which a comment and a line with
two numbers precede the triple `4 5 1`. -/
theorem bad_header_iff_no_triple_witness :
    read_mtx_file (some headerless_file) = Except.error BuildError.BadHeader ∧
      (read_header junk_header_file = some (triple_of "4 5 1\n".toList) ∧
        edge_lines junk_header_file = ["1 2 3\n".toList] ∧
        read_mtx_file (some junk_header_file) ≠ Except.error BuildError.BadHeader) ∧
      triple_of "4 5 1\n".toList = (4, 5, 1) :=
  ⟨(bad_header_iff_no_triple headerless_file).1.mpr (by
      have hl : read_lines MAX_LINE_LENGTH headerless_file = ["% c\n".toList, "3 3\n".toList] := by
        rfl
      rw [hl]
      intro line hline
      simp only [List.mem_cons, List.mem_singleton, List.not_mem_nil, or_false] at hline
      rcases hline with rfl | rfl
      · exact Or.inl (by rfl)
      · exact Or.inr (by decide)),
    (bad_header_iff_no_triple junk_header_file).2 ["% c\n".toList, "3 3\n".toList]
      "4 5 1\n".toList ["1 2 3\n".toList] (by rfl) (by
        intro line hline
        simp only [List.mem_cons, List.mem_singleton, List.not_mem_nil, or_false] at hline
        rcases hline with rfl | rfl
        · exact Or.inl (by rfl)
        · exact Or.inr (by decide)) (by decide) (by rfl),
    by rfl⟩

/-- C16, amended, on scenario 1 of the spec: the banner line ahead of `3 3 0`. -/
theorem short_comment_discarded_witness :
    read_mtx_file (some ([] ++ ('%' :: "%MatrixMarket".toList ++ '\n' :: no_comment_file)))
        = read_mtx_file (some ([] ++ no_comment_file)) ∧
      read_header ([] ++ ('%' :: "%MatrixMarket".toList ++ '\n' :: no_comment_file))
        = read_header ([] ++ no_comment_file) ∧
      edge_lines ([] ++ ('%' :: "%MatrixMarket".toList ++ '\n' :: no_comment_file))
        = edge_lines ([] ++ no_comment_file) :=
  short_comment_discarded [] no_comment_file "%MatrixMarket".toList (Or.inl rfl) (by rfl)
    (by decide) (by decide)

/-- C17, amended, on scenario 1 of the spec, row 0. -/
theorem prefill_trailing_zero_bits_witness :
    (0 ≠ empty_out.graph.num_vertices - 1 →
        trailing_zero_bits (last_word (empty_out.graph.adjacency_matrix.getD 0 []))
          = 64 - empty_out.graph.num_vertices % 64) ∧
      (0 = empty_out.graph.num_vertices - 1 →
        64 - empty_out.graph.num_vertices % 64
          < trailing_zero_bits (last_word (empty_out.graph.adjacency_matrix.getD 0 []))) ∧
      trailing_zero_bits
          (last_word ((allocated_graph empty_out.graph.num_vertices).adjacency_matrix.getD 0 []))
        = 64 - empty_out.graph.num_vertices % 64 :=
  prefill_trailing_zero_bits empty_file empty_out read_empty_file (by
    intro l hl
    have he : edge_lines empty_file = [] := by rfl
    rw [he] at hl
    exact absurd hl (List.not_mem_nil l)) (by decide) 0 (by decide)

/-- C18 on scenario 4 of the spec, after its first record, for the pair `(0, 2)` and the
`max_size` 20 that `main` passes. -/
theorem accesses_in_bounds_witness :
    (max 3 3 ≤ 64 * chunks_per_row (max 3 3) ∧ 64 * chunks_per_row (max 3 3) < max 3 3 + 64) ∧
      (∀ a ∈ reset_diagonal_accesses (max 3 3),
        a.1 < max 3 3 ∧ a.2 < chunks_per_row (max 3 3) ∧
          in_bounds (allocated_graph (max 3 3)).adjacency_matrix a) ∧
      (∀ a ∈ install_edge_accesses oob_mid.graph 0 2,
        a.1 < max 3 3 ∧ a.2 < chunks_per_row (max 3 3) ∧
          in_bounds oob_mid.graph.adjacency_matrix a ∧
          in_bounds (reset_bit oob_mid.graph.adjacency_matrix 0 2) a) ∧
      (∀ a ∈ print_adjacency_matrix_accesses oob_out.graph 20,
        (∃ i j, i < min (max 3 3) 20 ∧ j < min (max 3 3) 20 ∧ a = (i, j >>> 6)) ∧
          in_bounds oob_out.graph.adjacency_matrix a) :=
  accesses_in_bounds oob_file oob_out 3 3 2 1 oob_mid 0 2 20 (by rfl) read_oob_file
    state_after_oob_one (by decide) (by decide)

/-- C19 on a file with two records and the file with the two records swapped. -/
theorem order_independent_witness :
    (read_mtx_file (some two_edge_file)).map Output.graph
        = (read_mtx_file (some swapped_file)).map Output.graph ∧
      (read_mtx_file (some two_edge_file)).map Output.edges_read
        = (read_mtx_file (some swapped_file)).map Output.edges_read :=
  (order_independent two_edge_file swapped_file 3 3 2 (by rfl) (by rfl)).1 (by
    have h1 : (edge_lines two_edge_file).map parse_record = [some (1, 2), some (1, 3)] := by rfl
    have h2 : (edge_lines swapped_file).map parse_record = [some (1, 3), some (1, 2)] := by rfl
    rw [h1, h2]
    exact List.Perm.swap _ _ _)

/-- C20 on the start of scenario 4, for the pair `(0, 1)` whose bit is 1. -/
theorem inner_guards_redundant_witness :
    (test_bit start_state_3.graph.adjacency_matrix 0 1 = true →
        0 ≠ 1 ∧ test_bit start_state_3.graph.adjacency_matrix 1 0 = true ∧
          test_bit (reset_bit start_state_3.graph.adjacency_matrix 0 1) 1 0 = true) ∧
      install_edge start_state_3.graph 0 1 = install_edge_unguarded start_state_3.graph 0 1 ∧
      ∀ line, process_line start_state_3 line = process_line_unguarded start_state_3 line :=
  inner_guards_redundant oob_file 3 3 2 0 start_state_3 0 1 (by rfl) state_after_oob_zero
    (by decide) (by decide)

end Clique
